import Mathlib

/-!
# Community pin map (`src/main.js`): pin store and filter synchronisation

A shallow embedding of the script's state and event handlers.

* JavaScript values are the JSON data model plus `undefined` (`JSVal`).
  Numbers are exact rationals: the script never computes with a number, it only
  stores, compares and prints them.  A number stands for the decimal that
  `JSON.stringify` prints for it; neither `JSON.parse` nor the event sources
  the script reads from produce `NaN` or an infinity.
* `localStorage` is an association list from keys to texts, together with a log
  of the mutating calls (`setItem`, `removeItem`) made on it.
* `JSON.parse` and `JSON.stringify` are host functions.  They are a parameter
  (`JSONCodec`); the only law ever assumed of them is the round trip on JSON
  data (`JSONCodec.Lawful`), and `jsonCodec` is a concrete codec over JSON text
  for which that law is proved.
* A statement that throws ends its handler; `Completion` records how a handler
  ended.  Calls on `localStorage` themselves always succeed.  `console.error`
  output, `event.preventDefault()` and the geolocation handlers are not
  modelled.
-/

namespace PinMap

/-! # The model

## Values -/

/-- JavaScript values reachable in the script: JSON data and `undefined`. -/
inductive JSVal where
  | undefined : JSVal
  | null : JSVal
  | bool (b : Bool) : JSVal
  | num (q : ℚ) : JSVal
  | str (s : String) : JSVal
  | arr (xs : List JSVal) : JSVal
  | obj (kvs : List (String × JSVal)) : JSVal

instance : Inhabited JSVal := ⟨JSVal.undefined⟩

/-- Errors a statement of the script can throw. -/
inductive JSError where
  | syntaxError
  | typeError
  deriving DecidableEq, Repr

/-- How a function body or event handler ended.  `unmodelled` marks a run that
entered host-library code (Leaflet, `Intl`) with a value whose treatment there
is outside this development; nothing is claimed about such a run. -/
inductive Completion where
  | normal
  | abrupt (e : JSError)
  | unmodelled
  deriving DecidableEq, Repr

/-- JavaScript truthiness (`ToBoolean`). -/
def truthy : JSVal → Bool
  | .undefined => false
  | .null => false
  | .bool b => b
  | .num q => decide (q ≠ 0)
  | .str s => decide (s ≠ "")
  | .arr _ => true
  | .obj _ => true

/-- The `SameValueZero` comparison used by `Set`.  Arrays and objects compare by
reference; every array or object the script meets is a fresh result of
`JSON.parse` (the arguments of `toggleCategory` are `dataset` strings or
`undefined`), so two of them are never the same reference. -/
def sameValueZero : JSVal → JSVal → Bool
  | .undefined, .undefined => true
  | .null, .null => true
  | .bool a, .bool b => a == b
  | .num a, .num b => decide (a = b)
  | .str a, .str b => a == b
  | _, _ => false

/-- Reading a data property `v.k`, for the property names the script reads from
stored pins (`category`, `title`, `description`, `lat`, `lng`, `createdAt`):
none of them exists on a primitive wrapper or on an array. -/
def getProp (v : JSVal) (k : String) : Except JSError JSVal :=
  match v with
  | .undefined => .error .typeError
  | .null => .error .typeError
  | .obj kvs => .ok ((kvs.lookup k).getD .undefined)
  | _ => .ok .undefined

/-- Number of UTF-16 code units of a string. -/
def utf16Length (s : String) : Nat :=
  (s.data.map (fun c => if c.val < 0x10000 then 1 else 2)).sum

/-- The expression `v.length`. -/
def getLength : JSVal → Except JSError JSVal
  | .undefined => .error .typeError
  | .null => .error .typeError
  | .arr xs => .ok (.num xs.length)
  | .str s => .ok (.num (utf16Length s))
  | .obj kvs => .ok ((kvs.lookup "length").getD .undefined)
  | _ => .ok .undefined

/-! ## `Set` -/

/-- A JavaScript `Set`, as the list of its members in insertion order. -/
abbrev JSSet := List JSVal

/-- `s.has(v)`. -/
def JSSet.has (s : JSSet) (v : JSVal) : Bool := s.any (fun x => sameValueZero x v)

/-- `s.add(v)`. -/
def JSSet.add (s : JSSet) (v : JSVal) : JSSet := if s.has v then s else s ++ [v]

/-- `s.delete(v)`. -/
def JSSet.delete (s : JSSet) (v : JSVal) : JSSet := s.filter (fun x => !sameValueZero x v)

/-- `s.size`. -/
def JSSet.size (s : JSSet) : Nat := s.length

/-- `new Set(v)`: `undefined` and `null` give the empty set, an array or a
string is iterated, anything else is not iterable. -/
def newSet : JSVal → Except JSError JSSet
  | .undefined => .ok []
  | .null => .ok []
  | .arr xs => .ok (xs.foldl JSSet.add [])
  | .str s => .ok ((s.data.map (fun c => JSVal.str (String.singleton c))).foldl JSSet.add [])
  | _ => .error .typeError

/-! ## `localStorage` and `JSON` -/

/-- Contents of `localStorage`. -/
abbrev Storage := List (String × String)

/-- A mutating call on `localStorage`. -/
inductive StorageCall where
  | setItem (key value : String)
  | removeItem (key : String)
  deriving DecidableEq, Repr

/-- `localStorage.getItem(key)`; `none` is `null`. -/
def getItem (ls : Storage) (key : String) : Option String := ls.lookup key

/-- `localStorage.setItem(key, value)`. -/
def setItem (ls : Storage) (key value : String) : Storage :=
  (key, value) :: ls.filter (fun kv => kv.1 != key)

/-- `localStorage.removeItem(key)`. -/
def removeItem (ls : Storage) (key : String) : Storage :=
  ls.filter (fun kv => kv.1 != key)

/-- The host's `JSON` object: `parse` returns `none` where `JSON.parse` throws a
`SyntaxError`. -/
structure JSONCodec where
  parse : String → Option JSVal
  stringify : JSVal → String

/-! ## Constants of the script -/

/-- An entry of `categoryStyles`, or an inherited member of `Object.prototype`
found under that key (which has neither a `color` nor a `label`). -/
structure Style where
  color : Option String
  label : Option String
  deriving DecidableEq, Repr

def categories : List (String × Style) :=
  [ ("block_party", ⟨some "#ff6b6b", some "Block party"⟩),
    ("police", ⟨some "#1e90ff", some "Police / safety"⟩),
    ("traffic", ⟨some "#ffa500", some "Traffic / transit"⟩),
    ("community", ⟨some "#2ecc71", some "Community gathering"⟩),
    ("other", ⟨some "#8e44ad", some "Other"⟩) ]

def storageKey : String := "community-pins-v1"

def filterKey : String := "community-pins-filters-v1"

/-- The expression `categories.map(([key]) => key)`. -/
def categoryKeys : JSVal := .arr (categories.map (fun c => JSVal.str c.1))

/-! ## Persistence -/

/-- The body of the `try` block of `loadFilters`. -/
def loadFiltersTry (J : JSONCodec) (ls : Storage) : Except JSError JSVal :=
  match getItem ls filterKey with
  | some saved =>
    if saved ≠ "" then
      match J.parse saved with
      | some v => .ok v
      | none => .error .syntaxError
    else .ok categoryKeys
  | none => .ok categoryKeys

def loadFilters (J : JSONCodec) (ls : Storage) : Except JSError JSVal :=
  match loadFiltersTry J ls with
  | .ok v => .ok v
  | .error _ => .ok categoryKeys

/-- The body of the `try` block of `loadPins`. -/
def loadPinsTry (J : JSONCodec) (ls : Storage) : Except JSError JSVal :=
  match getItem ls storageKey with
  | some saved =>
    if saved ≠ "" then
      match J.parse saved with
      | some v => .ok v
      | none => .error .syntaxError
    else .ok (.arr [])
  | none => .ok (.arr [])

def loadPins (J : JSONCodec) (ls : Storage) : Except JSError JSVal :=
  match loadPinsTry J ls with
  | .ok v => .ok v
  | .error _ => .ok (.arr [])

/-! ## Page state -/

/-- A coordinate pair `{ lat, lng }`. -/
structure LatLng where
  lat : ℚ
  lng : ℚ
  deriving DecidableEq

/-- The `textContent` of `locationReadout`. -/
inductive ReadoutText where
  /-- The text of the page markup, before any handler wrote to it. -/
  | markup
  | literal (s : String)
  /-- The template with `lat.toFixed(5)` and `lng.toFixed(5)`. -/
  | coords (lat lng : ℚ)
  deriving DecidableEq

/-- A legend button created by `renderLegend`. -/
structure LegendButton where
  isActive : Bool
  color : Option String
  textContent : Option String
  category : String
  deriving DecidableEq

/-- The values interpolated into a marker popup. -/
structure Popup where
  title : JSVal
  label : Option String
  description : String
  postedAt : ℚ

/-- A circle marker on `markersLayer`. -/
structure Marker where
  lat : ℚ
  lng : ℚ
  color : Option String
  popup : Popup

/-- The values interpolated into a feed card (`lat`, `lng` are shown with
`toFixed(4)`, `time` through `formatTime`). -/
structure Card where
  color : Option String
  label : Option String
  time : ℚ
  title : JSVal
  description : String
  lat : ℚ
  lng : ℚ

/-- Content of the `activityList` element. -/
inductive ActivityList where
  /-- Not determined: the page markup before the first render, or the remains
  of a render that did not complete. -/
  | unspecified
  | html (markup : String)
  /-- Emptied and then filled with one `article` per card. -/
  | cards (cs : List Card)

/-- The mutable state the script works on. -/
structure AppState where
  localStorage : Storage
  /-- Mutating calls made on `localStorage`, most recent first. -/
  storageLog : List StorageCall
  activeCategories : JSSet
  selectedLatLng : Option LatLng
  selectionMarker : Option LatLng
  readoutText : ReadoutText
  readoutColor : String
  legend : List LegendButton
  markersLayer : List Marker
  activityList : ActivityList
  /-- Number of `pinForm.reset()` calls. -/
  formResets : Nat

def emptyStateHtml : String :=
  "<div class=\"empty-state\">No pins yet. Click the map to add one!</div>"

def saveFilters (J : JSONCodec) (s : AppState) : AppState :=
  let value := J.stringify (.arr s.activeCategories)
  { s with
    localStorage := setItem s.localStorage filterKey value
    storageLog := .setItem filterKey value :: s.storageLog }

def savePins (J : JSONCodec) (pins : JSVal) (s : AppState) : AppState :=
  let value := J.stringify pins
  { s with
    localStorage := setItem s.localStorage storageKey value
    storageLog := .setItem storageKey value :: s.storageLog }

def renderLegend (s : AppState) : AppState :=
  { s with
    legend := categories.map (fun c =>
      { isActive := s.activeCategories.has (.str c.1)
        color := c.2.color
        textContent := c.2.label
        category := c.1 }) }

/-! ## Rendering -/

/-- Own property names of `Object.prototype`, which `categoryStyles` inherits. -/
def objectPrototypeKeys : List String :=
  [ "constructor", "__defineGetter__", "__defineSetter__", "hasOwnProperty",
    "__lookupGetter__", "__lookupSetter__", "isPrototypeOf", "propertyIsEnumerable",
    "toString", "valueOf", "__proto__", "toLocaleString" ]

/-- The expression `categoryStyles[k]` for a primitive `k`; `none` is
`undefined`.  Only a string can name an entry: the property keys of the other
primitives are `"undefined"`, `"null"`, `"true"`, `"false"` and numerals. -/
def categoryStylesGet (k : JSVal) : Option Style :=
  match k with
  | .str s =>
    match categories.lookup s with
    | some st => some st
    | none => if s ∈ objectPrototypeKeys then some ⟨none, none⟩ else none
  | _ => none

/-- The expression `categoryStyles.other`. -/
def otherStyle : Style := ⟨some "#8e44ad", some "Other"⟩

/-- Timestamps `new Date(t)` accepts; `formatTime` throws on any other. -/
def dateInRange (t : ℚ) : Bool := decide (|t| ≤ 8640000000000000)

/-- The callback of `.filter(...)` in `renderPins`, run over the array. -/
def filterActive (active : JSSet) : List JSVal → Except JSError (List JSVal)
  | [] => .ok []
  | pin :: rest =>
    match getProp pin "category" with
    | .error e => .error e
    | .ok c =>
      match filterActive active rest with
      | .error e => .error e
      | .ok kept => .ok (if active.has c then pin :: kept else kept)

/-- One iteration of `pins.forEach(...)` in `renderPins`: the marker and the
card drawn for `pin`.  `none` when the pin is outside the modelled shape: not
an object with numeric `lat`, `lng`, an in-range numeric `createdAt`, a
primitive `category` and a `description` that is a string or falsy. -/
def renderPin (pin : JSVal) : Option (Marker × Card) :=
  match pin with
  | .obj kvs =>
    let get := fun k => (kvs.lookup k).getD JSVal.undefined
    match get "category", get "lat", get "lng", get "createdAt" with
    | .arr _, _, _, _ => none
    | .obj _, _, _, _ => none
    | category, .num lat, .num lng, .num createdAt =>
      if dateInRange createdAt then
        let style := (categoryStylesGet category).getD otherStyle
        let description := get "description"
        let accepted :=
          match description with
          | .str _ => true
          | d => !truthy d
        if accepted then
          let popupText :=
            match description with
            | .str d => if d ≠ "" then d.replace "<" "&lt;" else "No details provided."
            | _ => "No details provided."
          let cardText :=
            match description with
            | .str d => if d ≠ "" then d else "No details provided."
            | _ => "No details provided."
          some
            ( { lat := lat, lng := lng, color := style.color
                popup :=
                  { title := get "title", label := style.label
                    description := popupText, postedAt := createdAt } },
              { color := style.color, label := style.label, time := createdAt
                title := get "title", description := cardText, lat := lat, lng := lng } )
        else none
      else none
    | _, _, _, _ => none
  | _ => none

/-- The loop `pins.forEach(...)` of `renderPins`: what is drawn, in order;
`none` when some pin is outside the modelled shape. -/
def renderAll : List JSVal → Option (List (Marker × Card))
  | [] => some []
  | pin :: rest =>
    match renderPin pin with
    | none => none
    | some drawn =>
      match renderAll rest with
      | none => none
      | some more => some (drawn :: more)

def renderPins (J : JSONCodec) (s : AppState) : AppState × Completion :=
  let s := { s with markersLayer := [] }
  match loadPins J s.localStorage with
  | .error e => (s, .abrupt e)
  | .ok (.arr stored) =>
    match filterActive s.activeCategories stored with
    | .error e => (s, .abrupt e)
    | .ok pins =>
      if pins.length = 0 then
        ({ s with activityList := .html emptyStateHtml }, .normal)
      else
        match renderAll pins with
        | some drawn =>
          ({ s with
             markersLayer := drawn.map Prod.fst
             activityList := .cards (drawn.map Prod.snd) }, .normal)
        | none => ({ s with activityList := .unspecified }, .unmodelled)
  | .ok _ => (s, .abrupt .typeError)

/-! ## Event handlers -/

def setSelection (latlng : LatLng) (s : AppState) : AppState :=
  { s with
    selectedLatLng := some latlng
    selectionMarker := some latlng
    readoutText := .coords latlng.lat latlng.lng
    readoutColor := "" }

def toggleCategory (J : JSONCodec) (category : JSVal) (s : AppState) :
    AppState × Completion :=
  if s.activeCategories.has category && s.activeCategories.size == 1 then
    (s, .normal)
  else
    let s :=
      if s.activeCategories.has category then
        { s with activeCategories := s.activeCategories.delete category }
      else
        { s with activeCategories := s.activeCategories.add category }
    let s := saveFilters J s
    let s := renderLegend s
    renderPins J s

/-- The click handler of `clearPinsBtn`; `confirmed` is what `confirm(...)`
returns if it is called. -/
def clearPinsClick (J : JSONCodec) (confirmed : Bool) (s : AppState) :
    AppState × Completion :=
  match loadPins J s.localStorage with
  | .error e => (s, .abrupt e)
  | .ok pins =>
    match getLength pins with
    | .error e => (s, .abrupt e)
    | .ok len =>
      if !truthy len then (s, .normal)
      else if confirmed then
        renderPins J
          { s with
            localStorage := removeItem s.localStorage storageKey
            storageLog := .removeItem storageKey :: s.storageLog }
      else (s, .normal)

/-- The code points `String.prototype.trim` strips: ECMAScript `WhiteSpace`
(TAB, VT, FF, ZWNBSP and the category `Zs`) and `LineTerminator`. -/
def isWhiteSpace (c : Char) : Bool :=
  decide (c.val.toNat ∈ [0x9, 0xA, 0xB, 0xC, 0xD, 0x20, 0xA0, 0x1680, 0x2028, 0x2029,
    0x202F, 0x205F, 0x3000, 0xFEFF]) ||
  (decide (0x2000 ≤ c.val.toNat) && decide (c.val.toNat ≤ 0x200A))

/-- `s.trim()`. -/
def trim (s : String) : String :=
  String.mk ((s.data.dropWhile isWhiteSpace).rdropWhile isWhiteSpace)

/-- The values `new FormData(pinForm)` holds for the three fields read. -/
structure FormData where
  title : String
  category : String
  description : String
  deriving DecidableEq

/-- The object literal passed to `pins.unshift(...)`; `uuid` is the result of
`crypto.randomUUID()` and `now` that of `Date.now()`. -/
def newPin (form : FormData) (uuid : String) (latlng : LatLng) (now : Nat) : JSVal :=
  .obj
    [ ("id", .str uuid),
      ("title", .str (trim form.title)),
      ("category", .str form.category),
      ("description", .str (trim form.description)),
      ("lat", .num latlng.lat),
      ("lng", .num latlng.lng),
      ("createdAt", .num now) ]

def pickSpotMessage : String := "Pick a spot on the map before posting."

/-- The submit handler of `pinForm`. -/
def submitPin (J : JSONCodec) (form : FormData) (uuid : String) (now : Nat) (s : AppState) :
    AppState × Completion :=
  match s.selectedLatLng with
  | none =>
    ({ s with readoutText := .literal pickSpotMessage, readoutColor := "#f472b6" }, .normal)
  | some latlng =>
    match loadPins J s.localStorage with
    | .error e => (s, .abrupt e)
    | .ok (.arr stored) =>
      let pins := JSVal.arr (newPin form uuid latlng now :: stored)
      let s := savePins J pins s
      match renderPins J s with
      | (s, .normal) =>
        ({ s with
           formResets := s.formResets + 1
           readoutText := .literal "Tap the map to set a spot"
           readoutColor := "" }, .normal)
      | (s, c) => (s, c)
    | .ok _ => (s, .abrupt .typeError)

/-! ## Start-up and event sequences -/

/-- The state in which the script starts, given what `localStorage` holds and
the filter set built from it. -/
def initialState (ls : Storage) (active : JSSet) : AppState :=
  { localStorage := ls
    storageLog := []
    activeCategories := active
    selectedLatLng := none
    selectionMarker := none
    readoutText := .markup
    readoutColor := ""
    legend := []
    markersLayer := []
    activityList := .unspecified
    formResets := 0 }

/-- The expression `new Set(loadFilters())` that initialises `activeCategories`. -/
def startupFilterSet (J : JSONCodec) (ls : Storage) : Except JSError JSSet :=
  match loadFilters J ls with
  | .error e => .error e
  | .ok v => newSet v

/-- Running the script top to bottom.  An error at `new Set(loadFilters())`
ends the script before a handler is attached; the closing `renderLegend();
renderPins();` runs after all handlers are attached. -/
def startup (J : JSONCodec) (ls : Storage) : Except JSError (AppState × Completion) :=
  match startupFilterSet J ls with
  | .error e => .error e
  | .ok active => .ok (renderPins J (renderLegend (initialState ls active)))

/-- User events the handlers react to. -/
inductive Event where
  /-- A click on the map at `latlng`. -/
  | mapClick (latlng : LatLng)
  /-- A click on a legend button whose `dataset.category` is `category`
  (`none` for `undefined`). -/
  | legendClick (category : Option String)
  /-- A click on the clear button; `confirmed` answers the prompt if it is shown. -/
  | clearClick (confirmed : Bool)
  /-- A form submit with the field values, the UUID drawn and the clock reading. -/
  | submit (form : FormData) (uuid : String) (now : Nat)

/-- The state after the handler of one event has run (to completion or to a throw). -/
def step (J : JSONCodec) (s : AppState) : Event → AppState
  | .mapClick latlng => setSelection latlng s
  | .legendClick (some c) => (toggleCategory J (.str c) s).1
  | .legendClick none => (toggleCategory J .undefined s).1
  | .clearClick confirmed => (clearPinsClick J confirmed s).1
  | .submit form uuid now => (submitPin J form uuid now s).1

/-- The state after a sequence of events. -/
def run (J : JSONCodec) (s : AppState) (events : List Event) : AppState :=
  events.foldl (step J) s

/-- The state after a sequence of `toggleCategory` calls. -/
def toggleAll (J : JSONCodec) (s : AppState) (cs : List JSVal) : AppState :=
  cs.foldl (fun s c => (toggleCategory J c s).1) s

/-! ## JSON data, pins and events -/

/-- A list is a well-formed `Set` when no two of its members are the same value. -/
def JSSet.Valid (s : JSSet) : Prop := s.Pairwise (fun a b => sameValueZero a b = false)

/-- Primitive values: everything but arrays and objects. -/
def JSVal.isPrimitive : JSVal → Bool
  | .arr _ => false
  | .obj _ => false
  | _ => true

/-- Rationals with a finite decimal expansion: the numbers a JSON text can
denote.  A JavaScript number is identified with the decimal that
`JSON.stringify` prints for it.  (A denominator that divides some power of ten
divides the power whose exponent is the denominator itself: `isDecimal_iff`.) -/
def isDecimal (q : ℚ) : Bool := decide (q.den ∣ 10 ^ q.den)

mutual
/-- JSON data: no `undefined` anywhere, decimal numbers, distinct keys in
every object. -/
def JSVal.isJSON : JSVal → Bool
  | .undefined => false
  | .null => true
  | .bool _ => true
  | .num q => isDecimal q
  | .str _ => true
  | .arr xs => JSVal.allJSON xs
  | .obj kvs => JSVal.fieldsJSON kvs && decide (kvs.map Prod.fst).Nodup
/-- Every value of the list is JSON data. -/
def JSVal.allJSON : List JSVal → Bool
  | [] => true
  | x :: xs => JSVal.isJSON x && JSVal.allJSON xs
/-- Every field value of the list is JSON data. -/
def JSVal.fieldsJSON : List (String × JSVal) → Bool
  | [] => true
  | (_, x) :: kvs => JSVal.isJSON x && JSVal.fieldsJSON kvs
end

/-- What is assumed of the host's `JSON` object: parsing the serialisation of
JSON data gives the data back, and the empty text is not JSON. -/
structure JSONCodec.Lawful (J : JSONCodec) : Prop where
  parse_stringify : ∀ v : JSVal, v.isJSON = true → J.parse (J.stringify v) = some v
  parse_empty : J.parse "" = none

/-- A pin record as the data model describes it. -/
structure Pin where
  id : String
  title : String
  category : String
  description : String
  lat : ℚ
  lng : ℚ
  createdAt : Nat
  deriving DecidableEq

/-- The stored object of a pin, fields in the order the submit handler writes them. -/
def Pin.toJS (p : Pin) : JSVal :=
  .obj
    [ ("id", .str p.id),
      ("title", .str p.title),
      ("category", .str p.category),
      ("description", .str p.description),
      ("lat", .num p.lat),
      ("lng", .num p.lng),
      ("createdAt", .num p.createdAt) ]

/-- The coordinates are numbers a JSON text can denote. -/
def Pin.decimalCoords (p : Pin) : Bool := isDecimal p.lat && isDecimal p.lng

/-- The timestamp is a time value (`Date.now()` always is). -/
def Pin.timeInRange (p : Pin) : Bool := decide (p.createdAt ≤ 8640000000000000)

/-- The style a pin is drawn in. -/
def Pin.style (p : Pin) : Style := (categoryStylesGet (.str p.category)).getD otherStyle

/-- The feed card of a pin. -/
def Pin.card (p : Pin) : Card :=
  { color := p.style.color
    label := p.style.label
    time := p.createdAt
    title := .str p.title
    description := if p.description ≠ "" then p.description else "No details provided."
    lat := p.lat
    lng := p.lng }

/-- The map marker of a pin. -/
def Pin.marker (p : Pin) : Marker :=
  { lat := p.lat
    lng := p.lng
    color := p.style.color
    popup :=
      { title := .str p.title
        label := p.style.label
        description :=
          if p.description ≠ "" then p.description.replace "<" "&lt;" else "No details provided."
        postedAt := p.createdAt } }

/-- The pins of a list whose category is in the filter set, in the order of
the list. -/
def visiblePins (active : JSSet) (pins : List Pin) : List Pin :=
  pins.filter (fun p => active.has (.str p.category))

/-- Events as the browser delivers them: coordinates are numbers a JSON text
can denote and clock readings are time values. -/
def Event.wellFormed : Event → Bool
  | .mapClick latlng => isDecimal latlng.lat && isDecimal latlng.lng
  | .submit _ _ now => decide (now ≤ 8640000000000000)
  | _ => true

/-- The clock readings of the form submits of an event sequence, in order. -/
def submitClocks : List Event → List Nat
  | [] => []
  | .submit _ _ now :: rest => now :: submitClocks rest
  | _ :: rest => submitClocks rest

/-- The stored pin list is `pins`, newest first, no pin newer than a clock
reading still to come, and the coordinates held are JSON numbers. -/
def StoreInv (J : JSONCodec) (s : AppState) (pins : List Pin) (future : List Nat) : Prop :=
  loadPins J s.localStorage = .ok (.arr (pins.map Pin.toJS)) ∧
  (∀ p ∈ pins, p.decimalCoords = true ∧ p.timeInRange = true) ∧
  pins.Pairwise (fun a b => b.createdAt ≤ a.createdAt) ∧
  (∀ p ∈ pins, ∀ t ∈ future, p.createdAt ≤ t) ∧
  (∀ latlng, s.selectedLatLng = some latlng →
    isDecimal latlng.lat = true ∧ isDecimal latlng.lng = true)

/-! ## Example data -/

/-- The pin of the first scenario of the specification. -/
def examplePin : Pin :=
  ⟨"3f2b", "Block BBQ", "block_party", "", 4071 / 100, -7401 / 100, 1700000000000⟩

/-- A second, later pin of another category. -/
def examplePolicePin : Pin :=
  ⟨"9c1d", "Road closed", "police", "Until 6 pm", 4075 / 100, -7399 / 100, 1700000100000⟩

/-- A click on the map followed by two submits a second apart. -/
def exampleEvents : List Event :=
  [ .mapClick ⟨4071 / 100, -7401 / 100⟩,
    .submit ⟨"Road closed", "police", ""⟩ "9c1d" 1700000000000,
    .submit ⟨"Patrol", "police", "On foot"⟩ "77aa" 1700000001000 ]

/-! ## A JSON codec over text -/

namespace JsonText

def quote : Char := Char.ofNat 34
def backslash : Char := Char.ofNat 92
def lbrace : Char := Char.ofNat 123
def rbrace : Char := Char.ofNat 125

def isDigit (c : Char) : Bool := decide (48 ≤ c.toNat) && decide (c.toNat ≤ 57)

def digitChar (d : Nat) : Char := Char.ofNat (48 + d)

/-- The value of a run of decimal digits. -/
def digitsValue (ds : List Char) : Nat := ds.foldl (fun acc c => acc * 10 + (c.toNat - 48)) 0

/-- Decimal digits of `n`, most significant first, without leading zero. -/
def printNat : Nat → Nat → List Char
  | 0, _ => []
  | fuel + 1, n =>
    if n < 10 then [digitChar n] else printNat fuel (n / 10) ++ [digitChar (n % 10)]

/-- The last `k` decimal digits of `f`, most significant first. -/
def fixedDigits : Nat → Nat → List Char
  | 0, _ => []
  | k + 1, f => fixedDigits k (f / 10) ++ [digitChar (f % 10)]

/-- The least number of decimals in which a decimal rational is exact. -/
def decimalScale (q : ℚ) : Nat :=
  ((List.range (q.den + 1)).find? (fun k => decide (q.den ∣ 10 ^ k))).getD 0

/-- A number in plain decimal notation; `null` for a number that has none. -/
def printNum (q : ℚ) : List Char :=
  if isDecimal q then
    let k := decimalScale q
    let m := q.num.natAbs * (10 ^ k / q.den)
    (if q < 0 then ['-'] else []) ++ printNat (m / 10 ^ k + 1) (m / 10 ^ k) ++
      (if k = 0 then [] else '.' :: fixedDigits k (m % 10 ^ k))
  else "null".data

def hexDigit (n : Nat) : Char := if n < 10 then Char.ofNat (48 + n) else Char.ofNat (87 + n)

def hexVal (c : Char) : Option Nat :=
  if isDigit c then some (c.toNat - 48)
  else if 97 ≤ c.toNat ∧ c.toNat ≤ 102 then some (c.toNat - 87)
  else if 65 ≤ c.toNat ∧ c.toNat ≤ 70 then some (c.toNat - 55)
  else none

def hex4 (a b c d : Char) : Option Nat :=
  match hexVal a, hexVal b, hexVal c, hexVal d with
  | some a, some b, some c, some d => some (((a * 16 + b) * 16 + c) * 16 + d)
  | _, _, _, _ => none

/-- The escaped form of one character inside a JSON string. -/
def escapeChar (c : Char) : List Char :=
  if c = quote then [backslash, quote]
  else if c = backslash then [backslash, backslash]
  else if c.toNat = 8 then [backslash, 'b']
  else if c.toNat = 12 then [backslash, 'f']
  else if c.toNat = 10 then [backslash, 'n']
  else if c.toNat = 13 then [backslash, 'r']
  else if c.toNat = 9 then [backslash, 't']
  else if c.toNat < 32 then
    [backslash, 'u', '0', '0', hexDigit (c.toNat / 16), hexDigit (c.toNat % 16)]
  else [c]

def quoteString (cs : List Char) : List Char :=
  quote :: (cs.flatMap escapeChar ++ [quote])

mutual
/-- The JSON text of a value; `undefined` inside an array prints as `null`. -/
def strVal : JSVal → List Char
  | .undefined => "null".data
  | .null => "null".data
  | .bool true => "true".data
  | .bool false => "false".data
  | .num q => printNum q
  | .str s => quoteString s.data
  | .arr [] => ['[', ']']
  | .arr (x :: xs) => '[' :: (strVal x ++ strTail xs)
  | .obj kvs => lbrace :: strMembers true kvs
/-- The elements after the first, each preceded by a comma, and the closing bracket. -/
def strTail : List JSVal → List Char
  | [] => [']']
  | x :: xs => ',' :: (strVal x ++ strTail xs)
/-- The members of an object and the closing brace; a member whose value is
`undefined` is left out. -/
def strMembers : Bool → List (String × JSVal) → List Char
  | _, [] => [rbrace]
  | first, (_, .undefined) :: rest => strMembers first rest
  | first, (k, v) :: rest =>
    (if first then [] else [',']) ++
      (quoteString k.data ++ ':' :: (strVal v ++ strMembers false rest))
end

def isSpace (c : Char) : Bool :=
  decide (c.toNat = 32) || decide (c.toNat = 9) || decide (c.toNat = 10) || decide (c.toNat = 13)

def skipWs (cs : List Char) : List Char := cs.dropWhile isSpace

/-- The character a single-letter escape stands for. -/
def unescape (e : Char) : Option Char :=
  if e = quote then some quote
  else if e = backslash then some backslash
  else if e = '/' then some '/'
  else if e = 'b' then some (Char.ofNat 8)
  else if e = 'f' then some (Char.ofNat 12)
  else if e = 'n' then some (Char.ofNat 10)
  else if e = 'r' then some (Char.ofNat 13)
  else if e = 't' then some (Char.ofNat 9)
  else none

/-- The characters of a string literal up to its closing quote, and what
follows the quote. -/
def parseChars : Nat → List Char → Option (List Char × List Char)
  | 0, _ => none
  | _ + 1, [] => none
  | fuel + 1, c :: rest =>
    if c = quote then some ([], rest)
    else if c = backslash then
      match rest with
      | [] => none
      | e :: rest2 =>
        if e = 'u' then
          match rest2 with
          | h1 :: h2 :: h3 :: h4 :: rest3 =>
            match hex4 h1 h2 h3 h4 with
            | none => none
            | some n =>
              if 0xD800 ≤ n ∧ n ≤ 0xDBFF then
                match rest3 with
                | b :: u :: l1 :: l2 :: l3 :: l4 :: rest4 =>
                  if b = backslash ∧ u = 'u' then
                    match hex4 l1 l2 l3 l4 with
                    | none => none
                    | some lo =>
                      if 0xDC00 ≤ lo ∧ lo ≤ 0xDFFF then
                        match parseChars fuel rest4 with
                        | none => none
                        | some (s, r) =>
                          some (Char.ofNat (0x10000 + (n - 0xD800) * 0x400 + (lo - 0xDC00)) :: s, r)
                      else none
                  else none
                | _ => none
              else if 0xDC00 ≤ n ∧ n ≤ 0xDFFF then none
              else
                match parseChars fuel rest3 with
                | none => none
                | some (s, r) => some (Char.ofNat n :: s, r)
          | _ => none
        else
          match unescape e with
          | none => none
          | some ch =>
            match parseChars fuel rest2 with
            | none => none
            | some (s, r) => some (ch :: s, r)
    else if c.toNat < 32 then none
    else
      match parseChars fuel rest with
      | none => none
      | some (s, r) => some (c :: s, r)

/-- The optional exponent part of a number: its value and what follows. -/
def parseExponent (cs : List Char) : Option (Int × List Char) :=
  match cs with
  | [] => some (0, [])
  | c :: rest =>
    if c = 'e' ∨ c = 'E' then
      match rest with
      | [] => none
      | s :: rest2 =>
        if s = '-' then
          if rest2.takeWhile isDigit = [] then none
          else some (-(digitsValue (rest2.takeWhile isDigit) : Int), rest2.dropWhile isDigit)
        else if s = '+' then
          if rest2.takeWhile isDigit = [] then none
          else some ((digitsValue (rest2.takeWhile isDigit) : Int), rest2.dropWhile isDigit)
        else
          if rest.takeWhile isDigit = [] then none
          else some ((digitsValue (rest.takeWhile isDigit) : Int), rest.dropWhile isDigit)
    else some (0, cs)

/-- The optional fraction part of a number: its value and what follows. -/
def parseFraction (cs : List Char) : Option (ℚ × List Char) :=
  match cs with
  | [] => some (0, [])
  | c :: rest =>
    if c = '.' then
      if rest.takeWhile isDigit = [] then none
      else
        some ((digitsValue (rest.takeWhile isDigit) : ℚ) / 10 ^ (rest.takeWhile isDigit).length,
          rest.dropWhile isDigit)
    else some (0, cs)

/-- An unsigned number. -/
def parseUnsigned (cs : List Char) : Option (ℚ × List Char) :=
  let ds := cs.takeWhile isDigit
  if ds = [] then none
  else if 2 ≤ ds.length ∧ ds.head? = some '0' then none
  else
    match parseFraction (cs.dropWhile isDigit) with
    | none => none
    | some (frac, rest) =>
      match parseExponent rest with
      | none => none
      | some (e, rest2) => some (((digitsValue ds : ℚ) + frac) * 10 ^ e, rest2)

def parseNumber (cs : List Char) : Option (JSVal × List Char) :=
  match cs with
  | [] => none
  | c :: rest =>
    if c = '-' then
      match parseUnsigned rest with
      | none => none
      | some (q, r) => some (.num (-q), r)
    else
      match parseUnsigned cs with
      | none => none
      | some (q, r) => some (.num q, r)

/-- Adding a member in front of the members parsed after it: a later member
with the same key overrides the value. -/
def addMember (k : String) (v : JSVal) (rest : List (String × JSVal)) : List (String × JSVal) :=
  match rest.lookup k with
  | some v2 => (k, v2) :: rest.filter (fun kv => kv.1 != k)
  | none => (k, v) :: rest

mutual
/-- One JSON value at the head of the text, and what follows it. -/
def parseValue : Nat → List Char → Option (JSVal × List Char)
  | 0, _ => none
  | fuel + 1, cs =>
    match skipWs cs with
    | [] => none
    | c :: rest =>
      if c = quote then
        match parseChars (rest.length + 1) rest with
        | none => none
        | some (s, r) => some (.str (String.mk s), r)
      else if c = '[' then
        match skipWs rest with
        | [] => none
        | d :: rest2 =>
          if d = ']' then some (.arr [], rest2)
          else
            match parseValue fuel (d :: rest2) with
            | none => none
            | some (v, r) =>
              match parseTail fuel r with
              | none => none
              | some (vs, r2) => some (.arr (v :: vs), r2)
      else if c = lbrace then
        match skipWs rest with
        | [] => none
        | d :: rest2 =>
          if d = rbrace then some (.obj [], rest2)
          else
            match parseMember fuel (d :: rest2) with
            | none => none
            | some (k, v, r) =>
              match parseMembersTail fuel r with
              | none => none
              | some (kvs, r2) => some (.obj (addMember k v kvs), r2)
      else if (c :: rest).take 4 = "null".data then some (.null, (c :: rest).drop 4)
      else if (c :: rest).take 4 = "true".data then some (.bool true, (c :: rest).drop 4)
      else if (c :: rest).take 5 = "false".data then some (.bool false, (c :: rest).drop 5)
      else parseNumber (c :: rest)
/-- After an array element: a comma and the next element, or the closing bracket. -/
def parseTail : Nat → List Char → Option (List JSVal × List Char)
  | 0, _ => none
  | fuel + 1, cs =>
    match skipWs cs with
    | [] => none
    | c :: rest =>
      if c = ']' then some ([], rest)
      else if c = ',' then
        match parseValue fuel rest with
        | none => none
        | some (v, r) =>
          match parseTail fuel r with
          | none => none
          | some (vs, r2) => some (v :: vs, r2)
      else none
/-- An object member: a string, a colon and a value. -/
def parseMember : Nat → List Char → Option (String × JSVal × List Char)
  | 0, _ => none
  | fuel + 1, cs =>
    match skipWs cs with
    | [] => none
    | c :: rest =>
      if c = quote then
        match parseChars (rest.length + 1) rest with
        | none => none
        | some (k, r) =>
          match skipWs r with
          | [] => none
          | d :: r2 =>
            if d = ':' then
              match parseValue fuel r2 with
              | none => none
              | some (v, r3) => some (String.mk k, v, r3)
            else none
      else none
/-- After an object member: a comma and the next member, or the closing brace. -/
def parseMembersTail : Nat → List Char → Option (List (String × JSVal) × List Char)
  | 0, _ => none
  | fuel + 1, cs =>
    match skipWs cs with
    | [] => none
    | c :: rest =>
      if c = rbrace then some ([], rest)
      else if c = ',' then
        match parseMember fuel rest with
        | none => none
        | some (k, v, r) =>
          match parseMembersTail fuel r with
          | none => none
          | some (kvs, r2) => some (addMember k v kvs, r2)
      else none
end

/-- What may follow a value inside a text: nothing, a comma, or a closing
bracket or brace. -/
def Delim (rest : List Char) : Prop :=
  ∀ c, rest.head? = some c → c = ',' ∨ c = ']' ∨ c = rbrace

mutual
/-- Fuel that `parseValue` needs to read back the text of a value. -/
def need : JSVal → Nat
  | .arr [] => 1
  | .arr (x :: xs) => 1 + (need x + needTail xs)
  | .obj kvs => 1 + needMembers kvs
  | _ => 1
/-- Fuel that `parseTail` needs. -/
def needTail : List JSVal → Nat
  | [] => 1
  | x :: xs => 1 + (need x + needTail xs)
/-- Fuel that `parseMembersTail` needs. -/
def needMembers : List (String × JSVal) → Nat
  | [] => 1
  | (_, v) :: rest => 2 + (need v + needMembers rest)
end

end JsonText

/-- `JSON.stringify` and `JSON.parse` over JSON text.  Numbers are written in
plain decimal notation; `stringify` of `undefined` gives the text that
`setItem` would store for it. -/
def jsonCodec : JSONCodec where
  parse := fun t =>
    match JsonText.parseValue (t.length + 1) t.data with
    | some (v, rest) => if JsonText.skipWs rest = [] then some v else none
    | none => none
  stringify := fun v =>
    match v with
    | .undefined => "undefined"
    | v => String.mk (JsonText.strVal v)

/-- A page whose store holds the two example pins and whose filter set is
`active`. -/
def exampleState (active : JSSet) : AppState :=
  initialState
    (setItem [] storageKey
      (jsonCodec.stringify (.arr ([examplePin, examplePolicePin].map Pin.toJS)))) active

/-! # Auxiliary facts -/

theorem JSSet.add_ne_nil (s : JSSet) (v : JSVal) : s.add v ≠ [] := by
  unfold JSSet.add
  by_cases h : s.has v = true
  · simp only [h, if_true]
    intro hs
    simp [hs, JSSet.has] at h
  · simp [h]

theorem foldl_add_ne_nil (xs : List JSVal) (s : JSSet) (h : s ≠ []) :
    xs.foldl JSSet.add s ≠ [] := by
  induction xs generalizing s with
  | nil => simpa using h
  | cons x xs ih => exact ih _ (JSSet.add_ne_nil s x)

@[simp] theorem renderPins_activeCategories (J : JSONCodec) (s : AppState) :
    (renderPins J s).1.activeCategories = s.activeCategories := by
  unfold renderPins
  simp only
  split
  · rfl
  · split
    · rfl
    · split
      · rfl
      · split <;> rfl
  · rfl

theorem sameValueZero_eq {a b : JSVal} (h : sameValueZero a b = true) : a = b := by
  cases a <;> cases b <;> simp_all [sameValueZero]

theorem JSSet.valid_nil : JSSet.Valid [] := List.Pairwise.nil

theorem JSSet.add_valid {s : JSSet} (h : s.Valid) (v : JSVal) : (s.add v).Valid := by
  unfold JSSet.add
  by_cases hv : s.has v = true
  · simpa [hv] using h
  · simp only [hv, if_false, Bool.false_eq_true]
    refine List.pairwise_append.mpr ⟨h, List.pairwise_singleton _ _, ?_⟩
    intro a ha b hb
    simp only [List.mem_singleton] at hb
    subst hb
    simp only [JSSet.has, List.any_eq_true, not_exists, not_and, Bool.not_eq_true] at hv
    exact hv a ha

theorem JSSet.delete_valid {s : JSSet} (h : s.Valid) (v : JSVal) : (s.delete v).Valid :=
  List.Pairwise.filter _ h

theorem foldl_add_valid (xs : List JSVal) (s : JSSet) (h : s.Valid) :
    (xs.foldl JSSet.add s).Valid := by
  induction xs generalizing s with
  | nil => simpa using h
  | cons x xs ih => exact ih _ (JSSet.add_valid h x)

theorem JSSet.delete_ne_nil {s : JSSet} (h : s.Valid) (v : JSVal) (h2 : 2 ≤ s.length) :
    s.delete v ≠ [] := by
  match s, h, h2 with
  | x :: y :: rest, h, _ =>
    have hxy : sameValueZero x y = false := by
      have := (List.pairwise_cons.mp h).1 y (by simp)
      exact this
    intro hnil
    have hall := List.filter_eq_nil_iff.mp hnil
    have hx : sameValueZero x v = true := by simpa using hall x (by simp)
    have hy : sameValueZero y v = true := by simpa using hall y (by simp)
    have e1 := sameValueZero_eq hx
    have e2 := sameValueZero_eq hy
    subst e1
    subst e2
    rw [hx] at hxy
    exact Bool.noConfusion hxy

theorem newSet_valid {v : JSVal} {s : JSSet} (h : newSet v = .ok s) : s.Valid := by
  cases v <;> simp only [newSet, Except.ok.injEq, reduceCtorEq] at h
  · subst h; exact JSSet.valid_nil
  · subst h; exact JSSet.valid_nil
  · subst h; exact foldl_add_valid _ _ JSSet.valid_nil
  · subst h; exact foldl_add_valid _ _ JSSet.valid_nil

/-- What `renderPins` leaves alone: everything but the marker layer and the feed. -/
theorem renderPins_frame (J : JSONCodec) (s : AppState) :
    ∃ m a, (renderPins J s).1 = { s with markersLayer := m, activityList := a } := by
  unfold renderPins
  simp only
  split
  · exact ⟨_, _, rfl⟩
  · split
    · exact ⟨_, _, rfl⟩
    · split
      · exact ⟨_, _, rfl⟩
      · split <;> exact ⟨_, _, rfl⟩
  · exact ⟨_, _, rfl⟩

@[simp] theorem renderPins_localStorage (J : JSONCodec) (s : AppState) :
    (renderPins J s).1.localStorage = s.localStorage := by
  obtain ⟨m, a, h⟩ := renderPins_frame J s
  rw [h]

@[simp] theorem renderPins_storageLog (J : JSONCodec) (s : AppState) :
    (renderPins J s).1.storageLog = s.storageLog := by
  obtain ⟨m, a, h⟩ := renderPins_frame J s
  rw [h]

@[simp] theorem renderPins_selectedLatLng (J : JSONCodec) (s : AppState) :
    (renderPins J s).1.selectedLatLng = s.selectedLatLng := by
  obtain ⟨m, a, h⟩ := renderPins_frame J s
  rw [h]

/-- The filter set after `toggleCategory`, whatever happens in the renders that
follow the update. -/
theorem toggleCategory_activeCategories (J : JSONCodec) (c : JSVal) (s : AppState) :
    (toggleCategory J c s).1.activeCategories =
      if s.activeCategories.has c && s.activeCategories.size == 1 then s.activeCategories
      else if s.activeCategories.has c then s.activeCategories.delete c
      else s.activeCategories.add c := by
  unfold toggleCategory
  by_cases h1 : (s.activeCategories.has c && s.activeCategories.size == 1) = true
  · simp [h1]
  · simp only [h1, if_false, Bool.false_eq_true, renderPins_activeCategories]
    by_cases h2 : s.activeCategories.has c = true
    · simp [h2, renderLegend, saveFilters]
    · simp [h2, renderLegend, saveFilters]

theorem toggleCategory_inv (J : JSONCodec) (c : JSVal) (s : AppState)
    (h : s.activeCategories ≠ [] ∧ s.activeCategories.Valid) :
    (toggleCategory J c s).1.activeCategories ≠ [] ∧
      (toggleCategory J c s).1.activeCategories.Valid := by
  rw [toggleCategory_activeCategories]
  by_cases h1 : (s.activeCategories.has c && s.activeCategories.size == 1) = true
  · simpa [h1] using h
  · simp only [h1, if_false, Bool.false_eq_true]
    by_cases h2 : s.activeCategories.has c = true
    · simp only [h2, if_true]
      refine ⟨JSSet.delete_ne_nil h.2 c ?_, JSSet.delete_valid h.2 c⟩
      have hlen : s.activeCategories.length ≠ 1 := by
        simpa [h2, JSSet.size] using h1
      have hpos : 0 < s.activeCategories.length := List.length_pos.mpr h.1
      omega
    · simp only [h2, if_false, Bool.false_eq_true]
      exact ⟨JSSet.add_ne_nil _ c, JSSet.add_valid h.2 c⟩

theorem toggleAll_inv (J : JSONCodec) (cs : List JSVal) (s : AppState)
    (h : s.activeCategories ≠ [] ∧ s.activeCategories.Valid) :
    (toggleAll J s cs).activeCategories ≠ [] ∧ (toggleAll J s cs).activeCategories.Valid := by
  induction cs generalizing s with
  | nil => simpa [toggleAll] using h
  | cons c cs ih =>
    simp only [toggleAll, List.foldl_cons]
    exact ih _ (toggleCategory_inv J c s h)

theorem loadPins_absent (J : JSONCodec) (ls : Storage)
    (h : getItem ls storageKey = none ∨ ∃ t, getItem ls storageKey = some t ∧ J.parse t = none) :
    loadPins J ls = .ok (.arr []) := by
  unfold loadPins loadPinsTry
  rcases h with h | ⟨t, h, hp⟩
  · simp [h]
  · by_cases ht : t = ""
    · simp [h, ht]
    · simp [h, ht, hp]

theorem loadFilters_absent (J : JSONCodec) (ls : Storage)
    (h : getItem ls filterKey = none ∨ ∃ t, getItem ls filterKey = some t ∧ J.parse t = none) :
    loadFilters J ls = .ok categoryKeys := by
  unfold loadFilters loadFiltersTry
  rcases h with h | ⟨t, h, hp⟩
  · simp [h]
  · by_cases ht : t = ""
    · simp [h, ht]
    · simp [h, ht, hp]

theorem loadFilters_cases (J : JSONCodec) (ls : Storage) :
    loadFilters J ls = .ok categoryKeys ∨
      ∃ t v, getItem ls filterKey = some t ∧ J.parse t = some v ∧ loadFilters J ls = .ok v := by
  unfold loadFilters loadFiltersTry
  cases hg : getItem ls filterKey with
  | none => simp
  | some t =>
    by_cases ht : t = ""
    · simp [ht]
    · cases hp : J.parse t with
      | none => simp [ht, hp]
      | some v => simp [ht, hp]

theorem sameValueZero_self {c : JSVal} (hc : c.isPrimitive = true) : sameValueZero c c = true := by
  cases c <;> simp_all [sameValueZero, JSVal.isPrimitive]

theorem JSSet.has_delete_self (s : JSSet) (c : JSVal) : (s.delete c).has c = false := by
  simp only [JSSet.has, JSSet.delete, List.any_filter]
  rw [List.any_eq_false]
  intro x _
  cases sameValueZero x c <;> simp

theorem JSSet.has_add_self (s : JSSet) {c : JSVal} (hc : c.isPrimitive = true) :
    (s.add c).has c = true := by
  unfold JSSet.add
  by_cases h : s.has c = true
  · rw [if_pos h]
    exact h
  · rw [if_neg h]
    simp [JSSet.has, sameValueZero_self hc]

theorem JSSet.has_delete_other (s : JSSet) {c d : JSVal} (h : d ≠ c) :
    (s.delete c).has d = s.has d := by
  simp only [JSSet.has, JSSet.delete, List.any_filter]
  induction s with
  | nil => rfl
  | cons x xs ih =>
    simp only [List.any_cons, ih]
    congr 1
    cases hxd : sameValueZero x d
    · simp
    · have e1 := sameValueZero_eq hxd
      cases hxc : sameValueZero x c
      · simp
      · exact absurd ((sameValueZero_eq hxc).symm.trans e1).symm h

theorem JSSet.has_add_other (s : JSSet) {c d : JSVal} (h : d ≠ c) :
    (s.add c).has d = s.has d := by
  unfold JSSet.add
  by_cases hc : s.has c = true
  · rw [if_pos hc]
  · rw [if_neg hc]
    simp only [JSSet.has, List.any_append, List.any_cons, List.any_nil, Bool.or_false]
    cases hcd : sameValueZero c d
    · simp
    · exact absurd (sameValueZero_eq hcd).symm h

theorem toggleCategory_storage (J : JSONCodec) (c : JSVal) (s : AppState)
    (h : ¬ (s.activeCategories.has c = true ∧ s.activeCategories.size = 1)) :
    (toggleCategory J c s).1.localStorage =
        setItem s.localStorage filterKey
          (J.stringify (.arr (toggleCategory J c s).1.activeCategories)) ∧
      (toggleCategory J c s).1.storageLog =
        .setItem filterKey (J.stringify (.arr (toggleCategory J c s).1.activeCategories)) ::
          s.storageLog := by
  have h1 : ¬ ((s.activeCategories.has c && s.activeCategories.size == 1) = true) := by
    simpa using h
  unfold toggleCategory
  simp only [h1, if_false, Bool.false_eq_true, renderPins_activeCategories,
    renderPins_localStorage, renderPins_storageLog]
  by_cases h2 : s.activeCategories.has c = true
  · simp [h2, renderLegend, saveFilters]
  · simp [h2, renderLegend, saveFilters]

theorem JSONCodec.Lawful.stringify_ne_empty {J : JSONCodec} (hJ : J.Lawful) {v : JSVal}
    (hv : v.isJSON = true) : J.stringify v ≠ "" := by
  intro h
  have := hJ.parse_stringify v hv
  rw [h, hJ.parse_empty] at this
  cases this

theorem getItem_setItem (ls : Storage) (k v : String) : getItem (setItem ls k v) k = some v := by
  simp [getItem, setItem, List.lookup]

theorem getItem_setItem_ne (ls : Storage) {k k2 : String} (v : String) (h : k2 ≠ k) :
    getItem (setItem ls k v) k2 = getItem ls k2 := by
  have hb : (k2 == k) = false := by simpa using h
  simp only [getItem, setItem, List.lookup, hb]
  induction ls with
  | nil => rfl
  | cons kv rest ih =>
    obtain ⟨a, b⟩ := kv
    by_cases hak : a = k
    · subst hak
      have hb2 : (k2 == a) = false := hb
      simp [List.filter, List.lookup, hb2, ih]
    · have : (a != k) = true := by simpa using hak
      simp only [List.filter, this, List.lookup]
      rw [ih]

theorem getItem_removeItem (ls : Storage) (k : String) : getItem (removeItem ls k) k = none := by
  simp only [getItem, removeItem]
  induction ls with
  | nil => rfl
  | cons kv rest ih =>
    obtain ⟨a, b⟩ := kv
    by_cases hak : a = k
    · subst hak
      simpa [List.filter] using ih
    · have h1 : (a != k) = true := by simpa using hak
      have h2 : (k == a) = false := by simpa using fun h => hak h.symm
      simp only [List.filter, h1, List.lookup, h2]
      exact ih

theorem loadPins_after_save (J : JSONCodec) (hJ : J.Lawful) (ls : Storage) (v : JSVal)
    (hv : v.isJSON = true) :
    loadPins J (setItem ls storageKey (J.stringify v)) = .ok v := by
  unfold loadPins loadPinsTry
  simp [getItem_setItem, hJ.stringify_ne_empty hv, hJ.parse_stringify v hv]

theorem loadFilters_after_save (J : JSONCodec) (hJ : J.Lawful) (ls : Storage) (v : JSVal)
    (hv : v.isJSON = true) :
    loadFilters J (setItem ls filterKey (J.stringify v)) = .ok v := by
  unfold loadFilters loadFiltersTry
  simp [getItem_setItem, hJ.stringify_ne_empty hv, hJ.parse_stringify v hv]

theorem loadPins_total (J : JSONCodec) (ls : Storage) : ∃ v, loadPins J ls = .ok v := by
  unfold loadPins
  cases loadPinsTry J ls with
  | ok v => exact ⟨v, rfl⟩
  | error e => exact ⟨_, rfl⟩

theorem loadFilters_total (J : JSONCodec) (ls : Storage) : ∃ v, loadFilters J ls = .ok v := by
  unfold loadFilters
  cases loadFiltersTry J ls with
  | ok v => exact ⟨v, rfl⟩
  | error e => exact ⟨_, rfl⟩

theorem renderPins_of_empty (J : JSONCodec) (s : AppState)
    (h : loadPins J s.localStorage = .ok (.arr [])) :
    renderPins J s =
      ({ s with markersLayer := [], activityList := .html emptyStateHtml }, .normal) := by
  unfold renderPins
  simp [h, filterActive]

theorem submitPin_unselected_state (J : JSONCodec) (form : FormData) (uuid : String)
    (now : Nat) (s : AppState) (h : s.selectedLatLng = none) :
    (submitPin J form uuid now s).1 =
      { s with readoutText := .literal pickSpotMessage, readoutColor := "#f472b6" } := by
  unfold submitPin
  simp [h]

theorem isJSON_arr (xs : List JSVal) : (JSVal.arr xs).isJSON = JSVal.allJSON xs := by
  simp [JSVal.isJSON]

theorem allJSON_cons (x : JSVal) (xs : List JSVal) :
    JSVal.allJSON (x :: xs) = (x.isJSON && JSVal.allJSON xs) := by
  simp [JSVal.allJSON]

theorem dvd_ten_pow_self {d k : Nat} (hd : d ≠ 0) (h : d ∣ 10 ^ k) : d ∣ 10 ^ d := by
  have h10 : (10 : Nat) ^ k ≠ 0 := by positivity
  have h10d : (10 : Nat) ^ d ≠ 0 := by positivity
  rw [← Nat.factorization_le_iff_dvd hd h10d, Nat.factorization_pow]
  have hk := (Nat.factorization_le_iff_dvd hd h10).mpr h
  rw [Nat.factorization_pow] at hk
  intro p
  have hp := hk p
  simp only [Finsupp.smul_apply, smul_eq_mul] at hp ⊢
  rcases Nat.eq_zero_or_pos ((10 : Nat).factorization p) with h0 | h0
  · rw [h0] at hp ⊢
    omega
  · have hlt := Nat.factorization_lt p hd
    calc d.factorization p ≤ d * 1 := by omega
      _ ≤ d * (10 : Nat).factorization p := Nat.mul_le_mul_left d h0

theorem isDecimal_iff (q : ℚ) : isDecimal q = true ↔ ∃ k, q.den ∣ 10 ^ k := by
  simp only [isDecimal, decide_eq_true_eq]
  exact ⟨fun h => ⟨_, h⟩, fun ⟨_, h⟩ => dvd_ten_pow_self q.den_nz h⟩

theorem isDecimal_natCast (n : Nat) : isDecimal (n : ℚ) = true := by
  simp [isDecimal]

theorem newPin_isJSON (form : FormData) (uuid : String) (latlng : LatLng) (now : Nat)
    (hlat : isDecimal latlng.lat = true) (hlng : isDecimal latlng.lng = true) :
    (newPin form uuid latlng now).isJSON = true := by
  simp [newPin, JSVal.isJSON, JSVal.fieldsJSON, hlat, hlng, isDecimal_natCast]

theorem submitPin_storage (J : JSONCodec) (form : FormData) (uuid : String) (now : Nat)
    (s : AppState) (latlng : LatLng) (P : List JSVal)
    (hsel : s.selectedLatLng = some latlng)
    (hP : loadPins J s.localStorage = .ok (.arr P)) :
    (submitPin J form uuid now s).1.localStorage =
        setItem s.localStorage storageKey
          (J.stringify (.arr (newPin form uuid latlng now :: P))) ∧
      (submitPin J form uuid now s).1.storageLog =
        .setItem storageKey (J.stringify (.arr (newPin form uuid latlng now :: P))) ::
          s.storageLog ∧
      (submitPin J form uuid now s).1.activeCategories = s.activeCategories ∧
      (submitPin J form uuid now s).1.selectedLatLng = s.selectedLatLng := by
  unfold submitPin
  simp only [hsel, hP]
  generalize hs1 : savePins J (.arr (newPin form uuid latlng now :: P)) s = s1
  have e1 : s1.localStorage = setItem s.localStorage storageKey
      (J.stringify (.arr (newPin form uuid latlng now :: P))) := by
    rw [← hs1]; rfl
  have e2 : s1.storageLog = .setItem storageKey
      (J.stringify (.arr (newPin form uuid latlng now :: P))) :: s.storageLog := by
    rw [← hs1]; rfl
  have e3 : s1.activeCategories = s.activeCategories := by rw [← hs1]; rfl
  have e4 : s1.selectedLatLng = s.selectedLatLng := by rw [← hs1]; rfl
  have f1 := renderPins_localStorage J s1
  have f2 := renderPins_storageLog J s1
  have f3 := renderPins_activeCategories J s1
  have f4 := renderPins_selectedLatLng J s1
  cases hr : renderPins J s1 with
  | mk s2 c =>
    rw [hr] at f1 f2 f3 f4
    simp only at f1 f2 f3 f4
    cases c <;> simp [f1, f2, f3, f4, e1, e2, e3, e4, hsel]

theorem clearPinsClick_frame (J : JSONCodec) (confirmed : Bool) (s : AppState) :
    (clearPinsClick J confirmed s).1.activeCategories = s.activeCategories ∧
      (clearPinsClick J confirmed s).1.selectedLatLng = s.selectedLatLng := by
  unfold clearPinsClick
  cases loadPins J s.localStorage with
  | error e => simp
  | ok pins =>
    dsimp only
    cases getLength pins with
    | error e => simp
    | ok len =>
      by_cases h1 : truthy len = true
      · cases confirmed <;> simp [h1]
      · simp [h1]

theorem clearPinsClick_declined (J : JSONCodec) (s : AppState) :
    (clearPinsClick J false s).1 = s := by
  unfold clearPinsClick
  cases loadPins J s.localStorage with
  | error e => simp
  | ok pins =>
    dsimp only
    cases getLength pins with
    | error e => simp
    | ok len =>
      by_cases h1 : truthy len = true
      · simp [h1]
      · simp [h1]

theorem clearPinsClick_of_empty (J : JSONCodec) (confirmed : Bool) (s : AppState)
    (h : loadPins J s.localStorage = .ok (.arr [])) :
    clearPinsClick J confirmed s = (s, .normal) := by
  unfold clearPinsClick
  simp [h, getLength, truthy]

theorem clearPinsClick_confirmed (J : JSONCodec) (s : AppState) (P : List JSVal)
    (h : loadPins J s.localStorage = .ok (.arr P)) :
    loadPins J (clearPinsClick J true s).1.localStorage = .ok (.arr []) := by
  cases P with
  | nil => rw [clearPinsClick_of_empty J true s h]; exact h
  | cons x xs =>
    have ht : truthy (.num (((x :: xs).length : Nat) : ℚ)) = true := by
      simp only [truthy, List.length_cons, decide_eq_true_eq]
      exact_mod_cast Nat.succ_ne_zero xs.length
    unfold clearPinsClick
    simp only [h, getLength, ht, Bool.not_true, Bool.false_eq_true, if_false, if_true,
      renderPins_localStorage]
    exact loadPins_absent J _ (Or.inl (getItem_removeItem _ _))

theorem renderPin_toJS (p : Pin) (h : p.timeInRange = true) :
    renderPin p.toJS = some (p.marker, p.card) := by
  have hr : dateInRange (p.createdAt : ℚ) = true := by
    simp only [Pin.timeInRange, decide_eq_true_eq] at h
    simp only [dateInRange, decide_eq_true_eq, Nat.abs_cast]
    exact_mod_cast h
  simp [renderPin, Pin.toJS, List.lookup, hr, Pin.marker, Pin.card, Pin.style]

theorem renderAll_toJS (pins : List Pin) (h : ∀ p ∈ pins, p.timeInRange = true) :
    renderAll (pins.map Pin.toJS) = some (pins.map (fun p => (p.marker, p.card))) := by
  induction pins with
  | nil => rfl
  | cons p ps ih =>
    have h1 := renderPin_toJS p (h p (by simp))
    have h2 := ih (fun q hq => h q (by simp [hq]))
    simp [renderAll, h1, h2]

theorem filterActive_toJS (active : JSSet) (pins : List Pin) :
    filterActive active (pins.map Pin.toJS) =
      .ok ((pins.filter (fun p => active.has (.str p.category))).map Pin.toJS) := by
  induction pins with
  | nil => rfl
  | cons p ps ih =>
    have hc : getProp p.toJS "category" = .ok (.str p.category) := by
      simp [getProp, Pin.toJS, List.lookup]
    simp only [List.map_cons, filterActive, hc, ih, List.filter_cons]
    by_cases hm : active.has (.str p.category) = true
    · simp [hm]
    · simp [hm]

theorem renderPins_of_pins (J : JSONCodec) (s : AppState) (pins : List Pin)
    (htime : ∀ p ∈ pins, p.timeInRange = true)
    (hstored : loadPins J s.localStorage = .ok (.arr (pins.map Pin.toJS))) :
    renderPins J s =
      if visiblePins s.activeCategories pins = [] then
        ({ s with markersLayer := [], activityList := .html emptyStateHtml }, .normal)
      else
        ({ s with
           markersLayer := (visiblePins s.activeCategories pins).map Pin.marker
           activityList := .cards ((visiblePins s.activeCategories pins).map Pin.card) },
          .normal) := by
  have hvis : ∀ p ∈ pins.filter (fun p => s.activeCategories.has (.str p.category)),
      p.timeInRange = true := fun p hp => htime p (List.mem_filter.mp hp).1
  unfold renderPins visiblePins
  simp only [hstored, filterActive_toJS, List.length_map, List.length_eq_zero,
    renderAll_toJS _ hvis]
  split
  · rfl
  · simp [List.map_map, Function.comp_def]

theorem Pin.toJS_isJSON (p : Pin) (h : p.decimalCoords = true) : p.toJS.isJSON = true := by
  simp only [Pin.decimalCoords, Bool.and_eq_true] at h
  simp [Pin.toJS, JSVal.isJSON, JSVal.fieldsJSON, h.1, h.2, isDecimal_natCast]

theorem allJSON_pins (pins : List Pin) (h : ∀ p ∈ pins, p.decimalCoords = true) :
    JSVal.allJSON (pins.map Pin.toJS) = true := by
  induction pins with
  | nil => simp [JSVal.allJSON]
  | cons p ps ih =>
    rw [List.map_cons, allJSON_cons, Pin.toJS_isJSON p (h p (by simp)),
      ih (fun q hq => h q (by simp [hq]))]
    rfl

theorem allJSON_strs (keys : List String) : JSVal.allJSON (keys.map JSVal.str) = true := by
  induction keys with
  | nil => simp [JSVal.allJSON]
  | cons k ks ih =>
    rw [List.map_cons, allJSON_cons, ih]
    simp [JSVal.isJSON]

theorem foldl_add_of_valid (xs acc : JSSet) (h : JSSet.Valid (acc ++ xs)) :
    xs.foldl JSSet.add acc = acc ++ xs := by
  induction xs generalizing acc with
  | nil => simp
  | cons x xs ih =>
    have hx : acc.has x = false := by
      have h1 := (List.pairwise_append.mp h).2.2
      simp only [JSSet.has]
      rw [List.any_eq_false]
      intro a ha
      simpa using h1 a ha x (by simp)
    have hadd : acc.add x = acc ++ [x] := by simp [JSSet.add, hx]
    rw [List.foldl_cons, hadd, ih (acc ++ [x]) (by simpa using h)]
    simp

theorem valid_strs (keys : List String) (h : keys.Nodup) : JSSet.Valid (keys.map JSVal.str) := by
  unfold JSSet.Valid
  rw [List.pairwise_map]
  refine List.Pairwise.imp ?_ h
  intro a b hab
  simpa [sameValueZero] using hab

theorem loadPins_congr (J : JSONCodec) {ls1 ls2 : Storage}
    (h : getItem ls1 storageKey = getItem ls2 storageKey) : loadPins J ls1 = loadPins J ls2 := by
  unfold loadPins loadPinsTry
  rw [h]

theorem toggleCategory_pins (J : JSONCodec) (c : JSVal) (s : AppState) :
    loadPins J (toggleCategory J c s).1.localStorage = loadPins J s.localStorage ∧
      (toggleCategory J c s).1.selectedLatLng = s.selectedLatLng := by
  by_cases h : s.activeCategories.has c = true ∧ s.activeCategories.size = 1
  · have : toggleCategory J c s = (s, .normal) := by
      unfold toggleCategory
      simp [h.1, h.2]
    rw [this]
    exact ⟨rfl, rfl⟩
  · constructor
    · rw [(toggleCategory_storage J c s h).1]
      exact loadPins_congr J (getItem_setItem_ne _ _ (by decide))
    · have h1 : ¬ ((s.activeCategories.has c && s.activeCategories.size == 1) = true) := by
        simpa using h
      unfold toggleCategory
      simp only [h1, if_false, Bool.false_eq_true, renderPins_selectedLatLng]
      split <;> rfl

theorem clearPinsClick_pins (J : JSONCodec) (confirmed : Bool) (s : AppState) (P : List JSVal)
    (h : loadPins J s.localStorage = .ok (.arr P)) :
    loadPins J (clearPinsClick J confirmed s).1.localStorage = .ok (.arr P) ∨
      loadPins J (clearPinsClick J confirmed s).1.localStorage = .ok (.arr []) := by
  cases confirmed with
  | false => rw [clearPinsClick_declined]; exact Or.inl h
  | true => exact Or.inr (clearPinsClick_confirmed J s P h)

theorem step_inv (J : JSONCodec) (hJ : J.Lawful) (s : AppState) (e : Event) (rest : List Event)
    (pins : List Pin) (hwf : e.wellFormed = true)
    (hclock : (submitClocks (e :: rest)).Pairwise (fun a b => a ≤ b))
    (h : StoreInv J s pins (submitClocks (e :: rest))) :
    ∃ pins2, StoreInv J (step J s e) pins2 (submitClocks rest) := by
  obtain ⟨hload, hdata, hsorted, hfuture, hsel⟩ := h
  cases e with
  | mapClick latlng =>
    refine ⟨pins, hload, hdata, hsorted, hfuture, ?_⟩
    intro ll hll
    simp only [step, setSelection, Option.some.injEq] at hll
    subst hll
    simpa [Event.wellFormed] using hwf
  | legendClick c =>
    have key : ∀ v, StoreInv J (toggleCategory J v s).1 pins (submitClocks rest) := by
      intro v
      have := toggleCategory_pins J v s
      exact ⟨this.1.trans hload, hdata, hsorted, hfuture, by rw [this.2]; exact hsel⟩
    cases c with
    | none => exact ⟨pins, key _⟩
    | some c => exact ⟨pins, key _⟩
  | clearClick confirmed =>
    have hf := (clearPinsClick_frame J confirmed s).2
    rcases clearPinsClick_pins J confirmed s _ hload with h1 | h1
    · exact ⟨pins, h1, hdata, hsorted, hfuture, by simp only [step]; rw [hf]; exact hsel⟩
    · refine ⟨[], h1, by simp, List.Pairwise.nil, by simp, ?_⟩
      simp only [step]; rw [hf]; exact hsel
  | submit form uuid now =>
    simp only [submitClocks, List.pairwise_cons] at hclock
    simp only [submitClocks, List.mem_cons] at hfuture
    cases hs : s.selectedLatLng with
    | none =>
      have h5 := submitPin_unselected_state J form uuid now s hs
      refine ⟨pins, ?_, hdata, hsorted, fun p hp t ht => hfuture p hp t (Or.inr ht), ?_⟩
      · simp only [step]; rw [h5]; exact hload
      · intro ll hll
        simp only [step] at hll
        rw [h5] at hll
        simp [hs] at hll
    | some latlng =>
      have hll := hsel latlng hs
      have hst := submitPin_storage J form uuid now s latlng _ hs hload
      let pin : Pin := ⟨uuid, trim form.title, form.category, trim form.description,
        latlng.lat, latlng.lng, now⟩
      have hpin : newPin form uuid latlng now = pin.toJS := rfl
      have hpd : pin.decimalCoords = true ∧ pin.timeInRange = true := by
        refine ⟨by simp [Pin.decimalCoords, pin, hll.1, hll.2], ?_⟩
        simpa [Event.wellFormed, Pin.timeInRange, pin] using hwf
      have hdata2 : ∀ p ∈ pin :: pins, p.decimalCoords = true ∧ p.timeInRange = true := by
        intro p hp
        rcases List.mem_cons.mp hp with hp | hp
        · rw [hp]; exact hpd
        · exact hdata p hp
      refine ⟨pin :: pins, ?_, hdata2, ?_, ?_, ?_⟩
      · simp only [step]
        rw [hst.1, hpin, ← List.map_cons]
        exact loadPins_after_save J hJ _ _
          (by rw [isJSON_arr]; exact allJSON_pins _ (fun p hp => (hdata2 p hp).1))
      · exact List.pairwise_cons.mpr ⟨fun p hp => hfuture p hp now (Or.inl rfl), hsorted⟩
      · intro p hp t ht
        rcases List.mem_cons.mp hp with hp | hp
        · rw [hp]; exact hclock.1 t ht
        · exact hfuture p hp t (Or.inr ht)
      · intro ll hl2
        simp only [step] at hl2
        rw [hst.2.2.2, hs] at hl2
        cases hl2
        exact hll

theorem run_inv (J : JSONCodec) (hJ : J.Lawful) (events : List Event) (s : AppState)
    (pins : List Pin) (hwf : ∀ e ∈ events, e.wellFormed = true)
    (hclock : (submitClocks events).Pairwise (fun a b => a ≤ b))
    (h : StoreInv J s pins (submitClocks events)) :
    ∃ pins2, StoreInv J (run J s events) pins2 [] := by
  induction events generalizing s pins with
  | nil => exact ⟨pins, h⟩
  | cons e rest ih =>
    obtain ⟨pins2, h2⟩ := step_inv J hJ s e rest pins (hwf e (by simp)) hclock h
    have hc2 : (submitClocks rest).Pairwise (fun a b => a ≤ b) := by
      cases e <;> simp only [submitClocks, List.pairwise_cons] at hclock
      · exact hclock
      · exact hclock
      · exact hclock
      · exact hclock.2
    simp only [run, List.foldl_cons]
    exact ih _ pins2 (fun e he => hwf e (by simp [he])) hc2 h2

theorem trim_head_not_space (t : String) (c : Char) (h : (trim t).data.head? = some c) :
    isWhiteSpace c = false := by
  simp only [trim] at h
  have hne : (t.data.dropWhile isWhiteSpace).rdropWhile isWhiteSpace ≠ [] := by
    intro hnil
    rw [hnil] at h
    cases h
  have hpre := List.rdropWhile_prefix isWhiteSpace (l := t.data.dropWhile isWhiteSpace)
  obtain ⟨tail, htail⟩ := hpre
  have hne2 : t.data.dropWhile isWhiteSpace ≠ [] := by
    intro hnil
    rw [hnil] at hne
    exact hne rfl
  have hhead := List.head_dropWhile_not isWhiteSpace t.data hne2
  cases hr : (t.data.dropWhile isWhiteSpace).rdropWhile isWhiteSpace with
  | nil => exact absurd hr hne
  | cons a rest =>
    rw [hr] at h htail
    simp only [List.head?_cons, Option.some.injEq] at h
    subst h
    have : (t.data.dropWhile isWhiteSpace).head hne2 = a := by
      simp [← htail]
    rw [← this]
    exact hhead

theorem trim_last_not_space (t : String) (c : Char) (h : (trim t).data.getLast? = some c) :
    isWhiteSpace c = false := by
  simp only [trim] at h
  have hne : (t.data.dropWhile isWhiteSpace).rdropWhile isWhiteSpace ≠ [] := by
    intro hnil
    rw [hnil] at h
    cases h
  have hlast := List.rdropWhile_last_not isWhiteSpace (t.data.dropWhile isWhiteSpace) hne
  rw [List.getLast?_eq_getLast _ hne] at h
  simp only [Option.some.injEq] at h
  rw [h] at hlast
  simpa using hlast

theorem trim_ne_empty_iff (t : String) :
    trim t ≠ "" ↔ ∃ c ∈ t.data, isWhiteSpace c = false := by
  have key : trim t = "" ↔ ∀ c ∈ t.data, isWhiteSpace c = true := by
    have e : trim t = "" ↔ (t.data.dropWhile isWhiteSpace).rdropWhile isWhiteSpace = [] := by
      simp only [trim]
      constructor
      · intro h
        have := congrArg String.data h
        simpa using this
      · intro h
        rw [h]
    rw [e, List.rdropWhile_eq_nil_iff]
    constructor
    · intro h
      have hnil : t.data.dropWhile isWhiteSpace = [] := by
        by_contra hne
        have h1 := List.head_dropWhile_not isWhiteSpace t.data hne
        have h2 := h _ (List.head_mem hne)
        rw [h1] at h2
        cases h2
      exact List.dropWhile_eq_nil_iff.mp hnil
    · intro h x hx
      exact h x ((List.dropWhile_sublist isWhiteSpace).subset hx)
  rw [Ne, key]
  push_neg
  simp

/-! ## The codec reads back what it writes -/

namespace JsonText

theorem digitChar_toNat {d : Nat} (h : d < 10) : (digitChar d).toNat = 48 + d := by
  interval_cases d <;> rfl

theorem isDigit_digitChar {d : Nat} (h : d < 10) : isDigit (digitChar d) = true := by
  interval_cases d <;> rfl

theorem digitsValue_snoc (ds : List Char) (c : Char) :
    digitsValue (ds ++ [c]) = digitsValue ds * 10 + (c.toNat - 48) := by
  simp [digitsValue, List.foldl_append]

theorem printNat_spec (fuel n : Nat) (h : n < fuel) :
    (∀ c ∈ printNat fuel n, isDigit c = true) ∧ digitsValue (printNat fuel n) = n ∧
      printNat fuel n ≠ [] ∧ (1 ≤ n → (printNat fuel n).head? ≠ some '0') ∧
      (n < 10 → (printNat fuel n).length = 1) := by
  induction fuel generalizing n with
  | zero => omega
  | succ fuel ih =>
    unfold printNat
    by_cases hn : n < 10
    · simp only [hn, if_true]
      refine ⟨?_, ?_, by simp, ?_, by simp⟩
      · intro c hc
        simp only [List.mem_singleton] at hc
        rw [hc]
        exact isDigit_digitChar hn
      · simp [digitsValue, digitChar_toNat hn]
      · intro h1
        interval_cases n <;> decide
    · simp only [hn, if_false]
      obtain ⟨h1, h2, h3, h4, -⟩ := ih (n / 10) (by omega)
      have hd : n % 10 < 10 := Nat.mod_lt _ (by norm_num)
      refine ⟨?_, ?_, by simp, ?_, fun h => h.elim⟩
      · intro c hc
        rcases List.mem_append.mp hc with hc | hc
        · exact h1 c hc
        · simp only [List.mem_singleton] at hc
          rw [hc]
          exact isDigit_digitChar hd
      · rw [digitsValue_snoc, h2, digitChar_toNat hd]
        omega
      · intro _
        have := h4 (by omega)
        cases hp : printNat fuel (n / 10) with
        | nil => exact absurd hp h3
        | cons a as =>
          rw [hp] at this
          simpa using this

theorem fixedDigits_spec (k f : Nat) :
    (∀ c ∈ fixedDigits k f, isDigit c = true) ∧ digitsValue (fixedDigits k f) = f % 10 ^ k ∧
      (fixedDigits k f).length = k := by
  induction k generalizing f with
  | zero => simp [fixedDigits, digitsValue, Nat.mod_one]
  | succ k ih =>
    obtain ⟨h1, h2, h3⟩ := ih (f / 10)
    have hd : f % 10 < 10 := Nat.mod_lt _ (by norm_num)
    unfold fixedDigits
    refine ⟨?_, ?_, by simp [h3]⟩
    · intro c hc
      rcases List.mem_append.mp hc with hc | hc
      · exact h1 c hc
      · simp only [List.mem_singleton] at hc
        rw [hc]
        exact isDigit_digitChar hd
    · rw [digitsValue_snoc, h2, digitChar_toNat hd, Nat.add_sub_cancel_left, pow_succ,
        Nat.mul_comm (10 ^ k) 10, Nat.mod_mul]
      ring

theorem takeWhile_append_of {p : Char → Bool} (ds rest : List Char)
    (h1 : ∀ c ∈ ds, p c = true) (h2 : ∀ c, rest.head? = some c → p c = false) :
    (ds ++ rest).takeWhile p = ds ∧ (ds ++ rest).dropWhile p = rest := by
  induction ds with
  | nil =>
    cases rest with
    | nil => simp
    | cons c r =>
      have := h2 c rfl
      simp [List.takeWhile, List.dropWhile, this]
  | cons d ds ih =>
    have hd := h1 d (by simp)
    have := ih (fun c hc => h1 c (by simp [hc]))
    simp [List.takeWhile, List.dropWhile, hd, this.1, this.2]

theorem Delim.cases {rest : List Char} (h : Delim rest) :
    rest = [] ∨ ∃ c r, rest = c :: r ∧ (c = ',' ∨ c = ']' ∨ c = rbrace) := by
  cases rest with
  | nil => exact Or.inl rfl
  | cons c r => exact Or.inr ⟨c, r, rfl, h c rfl⟩

theorem Delim.not_digit {rest : List Char} (h : Delim rest) :
    ∀ c, rest.head? = some c → isDigit c = false := by
  intro c hc
  rcases h c hc with h | h | h <;> rw [h] <;> decide

theorem decimalScale_spec {q : ℚ} (h : isDecimal q = true) : q.den ∣ 10 ^ decimalScale q := by
  unfold decimalScale
  cases hf : (List.range (q.den + 1)).find? (fun k => decide (q.den ∣ 10 ^ k)) with
  | none =>
    have h1 := List.find?_eq_none.mp hf q.den (by simp)
    simp only [isDecimal, decide_eq_true_eq] at h
    simp only [decide_eq_true_eq] at h1
    exact absurd h h1
  | some k =>
    have h1 := List.find?_some hf
    simpa using h1

theorem parseExponent_delim {rest : List Char} (h : Delim rest) :
    parseExponent rest = some (0, rest) := by
  rcases h.cases with h | ⟨c, r, h, hc⟩
  · rw [h]; rfl
  · rw [h]
    have : ¬ (c = 'e' ∨ c = 'E') := by
      rcases hc with hc | hc | hc <;> rw [hc] <;> decide
    simp [parseExponent, this]

theorem parseFraction_delim {rest : List Char} (h : Delim rest) :
    parseFraction rest = some (0, rest) := by
  rcases h.cases with h | ⟨c, r, h, hc⟩
  · rw [h]; rfl
  · rw [h]
    have : ¬ (c = '.') := by
      rcases hc with hc | hc | hc <;> rw [hc] <;> decide
    simp [parseFraction, this]

theorem parseFraction_digits (k f : Nat) (hk : k ≠ 0) {rest : List Char} (h : Delim rest) :
    parseFraction ('.' :: (fixedDigits k f ++ rest)) =
      some (((f % 10 ^ k : Nat) : ℚ) / 10 ^ k, rest) := by
  obtain ⟨h1, h2, h3⟩ := fixedDigits_spec k f
  obtain ⟨t1, t2⟩ := takeWhile_append_of (fixedDigits k f) rest h1 h.not_digit
  have hne : fixedDigits k f ≠ [] := by
    intro hnil
    rw [hnil] at h3
    exact hk h3.symm
  simp [parseFraction, t1, t2, hne, h2, h3]

theorem parseUnsigned_print (a k f : Nat) {rest : List Char} (h : Delim rest) :
    parseUnsigned (printNat (a + 1) a ++
        ((if k = 0 then [] else '.' :: fixedDigits k f) ++ rest)) =
      some ((a : ℚ) + (if k = 0 then 0 else ((f % 10 ^ k : Nat) : ℚ) / 10 ^ k), rest) := by
  obtain ⟨p1, p2, p3, p4, p5⟩ := printNat_spec (a + 1) a (Nat.lt_succ_self a)
  have hnext : ∀ c, ((if k = 0 then [] else '.' :: fixedDigits k f) ++ rest).head? = some c →
      isDigit c = false := by
    intro c hc
    by_cases hk : k = 0
    · simp only [hk, if_true, List.nil_append] at hc
      exact h.not_digit c hc
    · simp only [hk, if_false, List.cons_append, List.head?_cons, Option.some.injEq] at hc
      rw [← hc]
      decide
  obtain ⟨t1, t2⟩ := takeWhile_append_of (printNat (a + 1) a) _ p1 hnext
  have hlead : ¬ (2 ≤ (printNat (a + 1) a).length ∧ (printNat (a + 1) a).head? = some '0') := by
    rintro ⟨hl, hh⟩
    by_cases ha : 1 ≤ a
    · exact p4 ha hh
    · have := p5 (by omega)
      omega
  unfold parseUnsigned
  simp only [t1, t2, p3, if_false, hlead]
  by_cases hk : k = 0
  · simp [hk, parseFraction_delim h, parseExponent_delim h, p2]
  · simp [hk, parseFraction_digits k f hk h, parseExponent_delim h, p2]

theorem printNat_head (a : Nat) : ∃ d ds, printNat (a + 1) a = d :: ds ∧ isDigit d = true := by
  obtain ⟨p1, -, p3, -, -⟩ := printNat_spec (a + 1) a (Nat.lt_succ_self a)
  cases hp : printNat (a + 1) a with
  | nil => exact absurd hp p3
  | cons d ds => exact ⟨d, ds, rfl, p1 d (by rw [hp]; simp)⟩

theorem decimal_value (q : ℚ) (k : Nat) (hk : q.den ∣ 10 ^ k) :
    ((q.num.natAbs * (10 ^ k / q.den) : Nat) : ℚ) / 10 ^ k = |q| := by
  obtain ⟨c, hc⟩ := hk
  have hden : (q.den : ℚ) ≠ 0 := by exact_mod_cast q.den_nz
  have hdiv : 10 ^ k / q.den = c := by
    rw [hc]
    exact Nat.mul_div_cancel_left c q.den_pos
  have hpow : ((10 : ℚ) ^ k) = (q.den : ℚ) * c := by exact_mod_cast hc
  have hc0 : (c : ℚ) ≠ 0 := by
    intro h0
    rw [h0, mul_zero] at hpow
    exact absurd hpow (by positivity)
  rw [hdiv, hpow, Nat.cast_mul, mul_div_mul_right _ _ hc0]
  have habs : |q| = (q.num.natAbs : ℚ) / q.den := by
    conv_lhs => rw [← Rat.num_div_den q]
    rw [abs_div, Nat.abs_cast]
    congr 1
    rw [Nat.cast_natAbs, Int.cast_abs]
  rw [habs]

theorem parseNumber_unsigned (cs : List Char) (d : Char) (ds : List Char) (hcs : cs = d :: ds)
    (hd : isDigit d = true) :
    parseNumber cs =
      match parseUnsigned cs with
      | none => none
      | some (q, r) => some (.num q, r) := by
  subst hcs
  have hne : ¬ (d = '-') := by
    intro e
    rw [e] at hd
    exact absurd hd (by decide)
  simp [parseNumber, hne]

theorem parseNumber_print (q : ℚ) (hq : isDecimal q = true) {rest : List Char} (h : Delim rest) :
    parseNumber (printNum q ++ rest) = some (.num q, rest) := by
  have hk := decimalScale_spec hq
  have hval := decimal_value q _ hk
  unfold printNum
  simp only [hq, if_true]
  generalize decimalScale q = k at hk hval ⊢
  generalize q.num.natAbs * (10 ^ k / q.den) = m at hval ⊢
  have hpos : (0 : ℚ) < 10 ^ k := by positivity
  have hsplit : ((m / 10 ^ k : Nat) : ℚ) +
      (if k = 0 then 0 else ((m % 10 ^ k : Nat) : ℚ) / 10 ^ k) = |q| := by
    rw [← hval]
    by_cases hk0 : k = 0
    · simp [hk0]
    · simp only [hk0, if_false]
      rw [eq_div_iff hpos.ne', add_mul, div_mul_cancel₀ _ hpos.ne']
      have := Nat.div_add_mod m (10 ^ k)
      have h2 : ((10 ^ k * (m / 10 ^ k) + m % 10 ^ k : Nat) : ℚ) = (m : ℚ) := by rw [this]
      push_cast at h2
      linarith
  have hu := parseUnsigned_print (m / 10 ^ k) k (m % 10 ^ k) h
  rw [Nat.mod_mod, hsplit] at hu
  by_cases hneg : q < 0
  · simp only [hneg, if_true, List.cons_append, List.nil_append, List.append_assoc]
    simp only [parseNumber, if_true, hu]
    rw [abs_of_neg hneg, neg_neg]
  · simp only [hneg, if_false, List.nil_append, List.append_assoc]
    obtain ⟨d, ds, hd, hdig⟩ := printNat_head (m / 10 ^ k)
    rw [parseNumber_unsigned _ d (ds ++ ((if k = 0 then [] else '.' :: fixedDigits k (m % 10 ^ k)) ++
      rest)) (by rw [hd]; rfl) hdig, hu]
    simp only
    rw [abs_of_nonneg (not_lt.mp hneg)]

theorem hexVal_hexDigit {n : Nat} (h : n < 16) : hexVal (hexDigit n) = some n := by
  interval_cases n <;> rfl

theorem hex4_control (n : Nat) (h : n < 32) :
    hex4 '0' '0' (hexDigit (n / 16)) (hexDigit (n % 16)) = some n := by
  have h1 : hexVal '0' = some 0 := rfl
  have h2 := hexVal_hexDigit (n := n / 16) (by omega)
  have h3 := hexVal_hexDigit (n := n % 16) (Nat.mod_lt _ (by norm_num))
  simp only [hex4, h1, h2, h3, Option.some.injEq]
  omega

theorem parseChars_escape (c : Char) (fuel : Nat) (tail : List Char) :
    parseChars (fuel + 1) (escapeChar c ++ tail) =
      match parseChars fuel tail with
      | none => none
      | some (s, r) => some (c :: s, r) := by
  have q1 : ¬ (backslash = quote) := by decide
  have q2 : ¬ (quote = 'u') := by decide
  have q3 : ¬ (backslash = 'u') := by decide
  have hof : Char.ofNat c.toNat = c := Char.ofNat_toNat c
  unfold escapeChar
  by_cases h1 : c = quote
  · subst h1
    simp [parseChars, q1, q2, unescape]
  · by_cases h2 : c = backslash
    · subst h2
      simp [parseChars, q1, q3, unescape]
    · simp only [h1, h2, if_false]
      by_cases h3 : c.toNat = 8
      · rw [h3] at hof
        have e1 : ¬ ('b' = 'u') := by decide
        have e2 : unescape 'b' = some (Char.ofNat 8) := rfl
        simp [h3, parseChars, q1, e1, e2]
        rw [hof]
      · by_cases h4 : c.toNat = 12
        · rw [h4] at hof
          have e1 : ¬ ('f' = 'u') := by decide
          have e2 : unescape 'f' = some (Char.ofNat 12) := rfl
          simp [h3, h4, parseChars, q1, e1, e2]
          rw [hof]
        · by_cases h5 : c.toNat = 10
          · rw [h5] at hof
            have e1 : ¬ ('n' = 'u') := by decide
            have e2 : unescape 'n' = some (Char.ofNat 10) := rfl
            simp [h3, h4, h5, parseChars, q1, e1, e2]
            rw [hof]
          · by_cases h6 : c.toNat = 13
            · rw [h6] at hof
              have e1 : ¬ ('r' = 'u') := by decide
              have e2 : unescape 'r' = some (Char.ofNat 13) := rfl
              simp [h3, h4, h5, h6, parseChars, q1, e1, e2]
              rw [hof]
            · by_cases h7 : c.toNat = 9
              · rw [h7] at hof
                have e1 : ¬ ('t' = 'u') := by decide
                have e2 : unescape 't' = some (Char.ofNat 9) := rfl
                simp [h3, h4, h5, h6, h7, parseChars, q1, e1, e2]
                rw [hof]
              · by_cases h8 : c.toNat < 32
                · have hx := hex4_control c.toNat h8
                  have s1 : ¬ (0xD800 ≤ c.toNat ∧ c.toNat ≤ 0xDBFF) := by omega
                  have s2 : ¬ (0xDC00 ≤ c.toNat ∧ c.toNat ≤ 0xDFFF) := by omega
                  simp only [h3, h4, h5, h6, h7, h8, if_false, if_true, List.cons_append,
                    List.nil_append, parseChars, q1, hx, s1, s2, hof]
                · simp only [h3, h4, h5, h6, h7, h8, if_false, List.cons_append,
                    List.nil_append, parseChars, h1, h2]

theorem parseChars_quoted (cs : List Char) (fuel : Nat) (rest : List Char)
    (h : cs.length + 1 ≤ fuel) :
    parseChars fuel (cs.flatMap escapeChar ++ quote :: rest) = some (cs, rest) := by
  induction cs generalizing fuel with
  | nil =>
    obtain ⟨f, rfl⟩ : ∃ f, fuel = f + 1 := ⟨fuel - 1, by simp at h; omega⟩
    simp [parseChars]
  | cons c cs ih =>
    obtain ⟨f, rfl⟩ : ∃ f, fuel = f + 1 := ⟨fuel - 1, by simp at h; omega⟩
    have := ih f (by simp at h; omega)
    rw [List.flatMap_cons, List.append_assoc, parseChars_escape, this]

theorem length_le_flatMap_escape (cs : List Char) : cs.length ≤ (cs.flatMap escapeChar).length := by
  induction cs with
  | nil => simp
  | cons c cs ih =>
    have h1 : 1 ≤ (escapeChar c).length := by
      unfold escapeChar
      split_ifs <;> simp
    rw [List.flatMap_cons, List.length_append, List.length_cons]
    omega

theorem skipWs_cons {c : Char} (r : List Char) (h : isSpace c = false) :
    skipWs (c :: r) = c :: r := by
  simp [skipWs, List.dropWhile, h]

theorem parseValue_literal (fuel : Nat) (lit : List Char) (v : JSVal) (rest : List Char)
    (h : (lit = "null".data ∧ v = .null) ∨ (lit = "true".data ∧ v = .bool true) ∨
      (lit = "false".data ∧ v = .bool false)) :
    parseValue (fuel + 1) (lit ++ rest) = some (v, rest) := by
  rcases h with ⟨h1, h2⟩ | ⟨h1, h2⟩ | ⟨h1, h2⟩ <;> subst h1 <;> subst h2
  · have hs : skipWs ("null".data ++ rest) = 'n' :: 'u' :: 'l' :: 'l' :: rest := rfl
    have c1 : ¬ ('n' = quote) := by decide
    have c2 : ¬ ('n' = lbrace) := by decide
    rw [parseValue, hs]
    simp [c1, c2]
  · have hs : skipWs ("true".data ++ rest) = 't' :: 'r' :: 'u' :: 'e' :: rest := rfl
    have c1 : ¬ ('t' = quote) := by decide
    have c2 : ¬ ('t' = lbrace) := by decide
    rw [parseValue, hs]
    simp [c1, c2]
  · have hs : skipWs ("false".data ++ rest) = 'f' :: 'a' :: 'l' :: 's' :: 'e' :: rest := rfl
    have c1 : ¬ ('f' = quote) := by decide
    have c2 : ¬ ('f' = lbrace) := by decide
    rw [parseValue, hs]
    simp [c1, c2]

theorem parseValue_number (fuel : Nat) (c : Char) (r : List Char)
    (h : c = '-' ∨ isDigit c = true) :
    parseValue (fuel + 1) (c :: r) = parseNumber (c :: r) := by
  have hsp : isSpace c = false := by
    rcases h with h | h
    · rw [h]; decide
    · simp only [isDigit, Bool.and_eq_true, decide_eq_true_eq] at h
      simp only [isSpace, Bool.or_eq_false_iff, decide_eq_false_iff_not]
      omega
  have hne : ∀ d : Char, d ≠ '-' → isDigit d = false → c ≠ d := by
    intro d h1 h2 e
    subst e
    rcases h with h | h
    · exact h1 h
    · rw [h] at h2; cases h2
  have c1 := hne quote (by decide) (by decide)
  have c2 := hne '[' (by decide) (by decide)
  have c3 := hne lbrace (by decide) (by decide)
  have c4 := hne 'n' (by decide) (by decide)
  have c5 := hne 't' (by decide) (by decide)
  have c6 := hne 'f' (by decide) (by decide)
  rw [parseValue, skipWs_cons r hsp]
  simp [c1, c2, c3, c4, c5, c6]

theorem printNum_head (q : ℚ) (hq : isDecimal q = true) :
    ∃ c r, printNum q = c :: r ∧ (c = '-' ∨ isDigit c = true) := by
  unfold printNum
  simp only [hq, if_true]
  by_cases hneg : q < 0
  · simp only [hneg, if_true]
    exact ⟨'-', _, rfl, Or.inl rfl⟩
  · simp only [hneg, if_false, List.nil_append]
    obtain ⟨d, ds, hd, hdig⟩ := printNat_head
      (q.num.natAbs * (10 ^ decimalScale q / q.den) / 10 ^ decimalScale q)
    rw [hd]
    exact ⟨d, _, rfl, Or.inr hdig⟩

theorem parseValue_num (fuel : Nat) (q : ℚ) (hq : isDecimal q = true) {rest : List Char}
    (h : Delim rest) : parseValue (fuel + 1) (printNum q ++ rest) = some (.num q, rest) := by
  obtain ⟨c, r, hc, hd⟩ := printNum_head q hq
  have := parseNumber_print q hq h
  rw [hc] at this ⊢
  rw [List.cons_append] at this ⊢
  rw [parseValue_number fuel c _ hd, this]

theorem parseValue_str (fuel : Nat) (s : String) (rest : List Char) :
    parseValue (fuel + 1) (quoteString s.data ++ rest) = some (.str s, rest) := by
  have hs : skipWs (quoteString s.data ++ rest) =
      quote :: (s.data.flatMap escapeChar ++ quote :: rest) := by
    simp only [quoteString, List.cons_append, List.append_assoc, List.nil_append]
    exact skipWs_cons _ (by decide)
  have hlen : s.data.length + 1 ≤ (s.data.flatMap escapeChar ++ quote :: rest).length + 1 := by
    have := length_le_flatMap_escape s.data
    simp only [List.length_append, List.length_cons]
    omega
  rw [parseValue, hs]
  simp only [↓reduceIte]
  rw [parseChars_quoted s.data _ rest hlen]

theorem strMembers_cons (first : Bool) (k : String) (v : JSVal) (rest : List (String × JSVal))
    (hv : v.isJSON = true) :
    strMembers first ((k, v) :: rest) =
      (if first then [] else [',']) ++
        (quoteString k.data ++ ':' :: (strVal v ++ strMembers false rest)) := by
  cases v <;> first | rfl | (simp [JSVal.isJSON] at hv)

theorem delim_strTail (xs : List JSVal) (rest : List Char) : Delim (strTail xs ++ rest) := by
  intro c hc
  cases xs with
  | nil =>
    simp only [strTail, List.cons_append, List.head?_cons, Option.some.injEq] at hc
    exact Or.inr (Or.inl hc.symm)
  | cons x xs =>
    simp only [strTail, List.cons_append, List.head?_cons, Option.some.injEq] at hc
    exact Or.inl hc.symm

theorem fieldsJSON_cons (k : String) (v : JSVal) (rest : List (String × JSVal)) :
    JSVal.fieldsJSON ((k, v) :: rest) = (v.isJSON && JSVal.fieldsJSON rest) := by
  simp [JSVal.fieldsJSON]

theorem delim_strMembers (kvs : List (String × JSVal)) (rest : List Char)
    (h : JSVal.fieldsJSON kvs = true) : Delim (strMembers false kvs ++ rest) := by
  intro c hc
  cases kvs with
  | nil =>
    simp only [strMembers, List.cons_append, List.head?_cons, Option.some.injEq] at hc
    exact Or.inr (Or.inr hc.symm)
  | cons kv kvs =>
    obtain ⟨k, v⟩ := kv
    rw [fieldsJSON_cons, Bool.and_eq_true] at h
    rw [strMembers_cons false k v kvs h.1] at hc
    simp only [Bool.false_eq_true, if_false, List.cons_append, List.nil_append,
      List.head?_cons, Option.some.injEq] at hc
    exact Or.inl hc.symm

/-- The first character of the text of JSON data opens a value. -/
theorem strVal_head (v : JSVal) (hv : v.isJSON = true) :
    ∃ c r, strVal v = c :: r ∧ isSpace c = false ∧ c ≠ ']' := by
  cases v with
  | undefined => simp [JSVal.isJSON] at hv
  | null => exact ⟨'n', _, rfl, by decide, by decide⟩
  | bool b =>
    cases b
    · exact ⟨'f', _, rfl, by decide, by decide⟩
    · exact ⟨'t', _, rfl, by decide, by decide⟩
  | num q =>
    simp only [JSVal.isJSON] at hv
    obtain ⟨c, r, hc, hd⟩ := printNum_head q hv
    refine ⟨c, r, by rw [strVal, hc], ?_, ?_⟩
    · rcases hd with h | h
      · rw [h]; decide
      · simp only [isDigit, Bool.and_eq_true, decide_eq_true_eq] at h
        simp only [isSpace, Bool.or_eq_false_iff, decide_eq_false_iff_not]
        omega
    · rcases hd with h | h
      · rw [h]; decide
      · intro e
        rw [e] at h
        exact absurd h (by decide)
  | str s => exact ⟨quote, _, rfl, by decide, by decide⟩
  | arr xs =>
    cases xs with
    | nil => exact ⟨'[', _, rfl, by decide, by decide⟩
    | cons x xs => exact ⟨'[', _, rfl, by decide, by decide⟩
  | obj kvs => exact ⟨lbrace, _, rfl, by decide, by decide⟩

theorem parseValue_arr_cons (fuel : Nat) (x : JSVal) (xs : List JSVal) (R rest : List Char)
    (hx : x.isJSON = true)
    (h1 : parseValue fuel (strVal x ++ R) = some (x, R))
    (h2 : parseTail fuel R = some (xs, rest)) :
    parseValue (fuel + 1) ('[' :: (strVal x ++ R)) = some (.arr (x :: xs), rest) := by
  obtain ⟨c, r, hc, hsp, hne⟩ := strVal_head x hx
  have c1 : ¬ ('[' = quote) := by decide
  rw [hc, List.cons_append] at h1 ⊢
  rw [parseValue, skipWs_cons _ (by decide : isSpace '[' = false)]
  simp only [c1, if_false, if_true, skipWs_cons _ hsp, hne, h1, h2]

theorem parseTail_nil (fuel : Nat) (rest : List Char) :
    parseTail (fuel + 1) (']' :: rest) = some ([], rest) := by
  rw [parseTail, skipWs_cons _ (by decide : isSpace ']' = false)]
  simp

theorem parseTail_cons (fuel : Nat) (x : JSVal) (xs : List JSVal) (R rest : List Char)
    (h1 : parseValue fuel (strVal x ++ R) = some (x, R))
    (h2 : parseTail fuel R = some (xs, rest)) :
    parseTail (fuel + 1) (',' :: (strVal x ++ R)) = some (x :: xs, rest) := by
  have c1 : ¬ (',' = ']') := by decide
  rw [parseTail, skipWs_cons _ (by decide : isSpace ',' = false)]
  simp only [c1, if_false, if_true, h1, h2]

theorem parseMember_spec (fuel : Nat) (k : String) (v : JSVal) (R : List Char)
    (h1 : parseValue fuel (strVal v ++ R) = some (v, R)) :
    parseMember (fuel + 1) (quoteString k.data ++ ':' :: (strVal v ++ R)) = some (k, v, R) := by
  have hs : skipWs (quoteString k.data ++ ':' :: (strVal v ++ R)) =
      quote :: (k.data.flatMap escapeChar ++ quote :: ':' :: (strVal v ++ R)) := by
    simp only [quoteString, List.cons_append, List.append_assoc, List.nil_append]
    exact skipWs_cons _ (by decide)
  have hlen : k.data.length + 1 ≤
      (k.data.flatMap escapeChar ++ quote :: ':' :: (strVal v ++ R)).length + 1 := by
    have := length_le_flatMap_escape k.data
    simp only [List.length_append, List.length_cons]
    omega
  rw [parseMember, hs]
  simp only [↓reduceIte]
  rw [parseChars_quoted k.data _ _ hlen]
  simp only [skipWs_cons _ (by decide : isSpace ':' = false), ↓reduceIte, h1]

theorem addMember_fresh (k : String) (v : JSVal) (kvs : List (String × JSVal))
    (h : k ∉ kvs.map Prod.fst) : addMember k v kvs = (k, v) :: kvs := by
  have : kvs.lookup k = none := by
    induction kvs with
    | nil => rfl
    | cons kv kvs ih =>
      obtain ⟨a, b⟩ := kv
      simp only [List.map_cons, List.mem_cons, not_or] at h
      have hb : (k == a) = false := by simpa using h.1
      simp only [List.lookup, hb]
      exact ih h.2
  simp [addMember, this]

theorem parseMembersTail_nil (fuel : Nat) (rest : List Char) :
    parseMembersTail (fuel + 1) (rbrace :: rest) = some ([], rest) := by
  rw [parseMembersTail, skipWs_cons _ (by decide : isSpace rbrace = false)]
  simp

theorem parseMembersTail_cons (fuel : Nat) (k : String) (v : JSVal)
    (kvs : List (String × JSVal)) (R rest : List Char)
    (hk : k ∉ kvs.map Prod.fst)
    (h1 : parseMember fuel (quoteString k.data ++ ':' :: (strVal v ++ R)) = some (k, v, R))
    (h2 : parseMembersTail fuel R = some (kvs, rest)) :
    parseMembersTail (fuel + 1) (',' :: (quoteString k.data ++ ':' :: (strVal v ++ R))) =
      some ((k, v) :: kvs, rest) := by
  have c1 : ¬ (',' = rbrace) := by decide
  rw [parseMembersTail, skipWs_cons _ (by decide : isSpace ',' = false)]
  simp only [c1, if_false, if_true, h1, h2, addMember_fresh k v kvs hk]

theorem parseValue_obj_nil (fuel : Nat) (rest : List Char) :
    parseValue (fuel + 1) (lbrace :: rbrace :: rest) = some (.obj [], rest) := by
  have c1 : ¬ (lbrace = quote) := by decide
  have c2 : ¬ (lbrace = '[') := by decide
  rw [parseValue, skipWs_cons _ (by decide : isSpace lbrace = false)]
  simp [c1, c2, skipWs_cons _ (by decide : isSpace rbrace = false)]

theorem parseValue_obj_cons (fuel : Nat) (k : String) (v : JSVal)
    (kvs : List (String × JSVal)) (R rest : List Char)
    (hk : k ∉ kvs.map Prod.fst)
    (h1 : parseMember fuel (quoteString k.data ++ ':' :: (strVal v ++ R)) = some (k, v, R))
    (h2 : parseMembersTail fuel R = some (kvs, rest)) :
    parseValue (fuel + 1) (lbrace :: (quoteString k.data ++ ':' :: (strVal v ++ R))) =
      some (.obj ((k, v) :: kvs), rest) := by
  have c1 : ¬ (lbrace = quote) := by decide
  have c2 : ¬ (lbrace = '[') := by decide
  have c3 : ¬ (quote = rbrace) := by decide
  have hq : quoteString k.data ++ ':' :: (strVal v ++ R) =
      quote :: (k.data.flatMap escapeChar ++ [quote] ++ ':' :: (strVal v ++ R)) := by
    simp [quoteString]
  rw [parseValue, skipWs_cons _ (by decide : isSpace lbrace = false)]
  rw [hq] at h1 ⊢
  simp only [c1, c2, c3, if_false, if_true, skipWs_cons _ (by decide : isSpace quote = false),
    h1, h2, addMember_fresh k v kvs hk]

mutual
theorem parse_strVal : ∀ (v : JSVal), v.isJSON = true → ∀ (fuel : Nat) (rest : List Char),
    need v ≤ fuel → Delim rest → parseValue fuel (strVal v ++ rest) = some (v, rest)
  | .undefined, hv, _, _, _, _ => by simp [JSVal.isJSON] at hv
  | .null, _, fuel, rest, hf, _ => by
    obtain ⟨f, rfl⟩ : ∃ f, fuel = f + 1 := ⟨fuel - 1, by simp only [need] at hf; omega⟩
    exact parseValue_literal f _ _ rest (Or.inl ⟨rfl, rfl⟩)
  | .bool true, _, fuel, rest, hf, _ => by
    obtain ⟨f, rfl⟩ : ∃ f, fuel = f + 1 := ⟨fuel - 1, by simp only [need] at hf; omega⟩
    exact parseValue_literal f _ _ rest (Or.inr (Or.inl ⟨rfl, rfl⟩))
  | .bool false, _, fuel, rest, hf, _ => by
    obtain ⟨f, rfl⟩ : ∃ f, fuel = f + 1 := ⟨fuel - 1, by simp only [need] at hf; omega⟩
    exact parseValue_literal f _ _ rest (Or.inr (Or.inr ⟨rfl, rfl⟩))
  | .num q, hv, fuel, rest, hf, hd => by
    obtain ⟨f, rfl⟩ : ∃ f, fuel = f + 1 := ⟨fuel - 1, by simp only [need] at hf; omega⟩
    simp only [JSVal.isJSON] at hv
    rw [strVal]
    exact parseValue_num f q hv hd
  | .str s, _, fuel, rest, hf, _ => by
    obtain ⟨f, rfl⟩ : ∃ f, fuel = f + 1 := ⟨fuel - 1, by simp only [need] at hf; omega⟩
    rw [strVal]
    exact parseValue_str f s rest
  | .arr [], _, fuel, rest, hf, _ => by
    obtain ⟨f, rfl⟩ : ∃ f, fuel = f + 1 := ⟨fuel - 1, by simp only [need] at hf; omega⟩
    have c1 : ¬ ('[' = quote) := by decide
    rw [strVal, List.cons_append, List.cons_append, List.nil_append, parseValue,
      skipWs_cons _ (by decide : isSpace '[' = false)]
    simp [c1, skipWs_cons _ (by decide : isSpace ']' = false)]
  | .arr (x :: xs), hv, fuel, rest, hf, hd => by
    obtain ⟨f, rfl⟩ : ∃ f, fuel = f + 1 := ⟨fuel - 1, by simp only [need] at hf; omega⟩
    simp only [need] at hf
    simp only [JSVal.isJSON] at hv
    rw [allJSON_cons, Bool.and_eq_true] at hv
    have h1 := parse_strVal x hv.1 f (strTail xs ++ rest) (by omega) (delim_strTail xs rest)
    have h2 := parse_strTail xs hv.2 f rest (by omega) hd
    rw [strVal, List.cons_append, List.append_assoc]
    exact parseValue_arr_cons f x xs _ rest hv.1 h1 h2
  | .obj [], _, fuel, rest, hf, _ => by
    obtain ⟨f, rfl⟩ : ∃ f, fuel = f + 1 := ⟨fuel - 1, by simp only [need] at hf; omega⟩
    rw [strVal, strMembers]
    exact parseValue_obj_nil f rest
  | .obj ((k, v) :: kvs), hv, fuel, rest, hf, hd => by
    obtain ⟨f, rfl⟩ : ∃ f, fuel = f + 1 := ⟨fuel - 1, by simp only [need] at hf; omega⟩
    simp only [need, needMembers] at hf
    obtain ⟨g, rfl⟩ : ∃ g, f = g + 1 := ⟨f - 1, by omega⟩
    simp only [JSVal.isJSON, Bool.and_eq_true, decide_eq_true_eq] at hv
    obtain ⟨hfields, hnodup⟩ := hv
    rw [fieldsJSON_cons, Bool.and_eq_true] at hfields
    rw [List.map_cons, List.nodup_cons] at hnodup
    have h0 := parse_strVal v hfields.1 g (strMembers false kvs ++ rest) (by omega)
      (delim_strMembers kvs rest hfields.2)
    have h1 := parseMember_spec g k v _ h0
    have h2 := parse_strMembers kvs hfields.2 hnodup.2 (g + 1) rest (by omega) hd
    rw [strVal, strMembers_cons true k v kvs hfields.1]
    simp only [if_true, List.nil_append, List.cons_append, List.append_assoc]
    exact parseValue_obj_cons (g + 1) k v kvs _ rest hnodup.1 h1 h2
theorem parse_strTail : ∀ (xs : List JSVal), JSVal.allJSON xs = true →
    ∀ (fuel : Nat) (rest : List Char), needTail xs ≤ fuel → Delim rest →
      parseTail fuel (strTail xs ++ rest) = some (xs, rest)
  | [], _, fuel, rest, hf, _ => by
    obtain ⟨f, rfl⟩ : ∃ f, fuel = f + 1 := ⟨fuel - 1, by simp only [needTail] at hf; omega⟩
    rw [strTail]
    exact parseTail_nil f rest
  | x :: xs, hv, fuel, rest, hf, hd => by
    obtain ⟨f, rfl⟩ : ∃ f, fuel = f + 1 := ⟨fuel - 1, by simp only [needTail] at hf; omega⟩
    simp only [needTail] at hf
    rw [allJSON_cons, Bool.and_eq_true] at hv
    have h1 := parse_strVal x hv.1 f (strTail xs ++ rest) (by omega) (delim_strTail xs rest)
    have h2 := parse_strTail xs hv.2 f rest (by omega) hd
    rw [strTail, List.cons_append, List.append_assoc]
    exact parseTail_cons f x xs _ rest h1 h2
theorem parse_strMembers : ∀ (kvs : List (String × JSVal)), JSVal.fieldsJSON kvs = true →
    (kvs.map Prod.fst).Nodup → ∀ (fuel : Nat) (rest : List Char), needMembers kvs ≤ fuel →
      Delim rest → parseMembersTail fuel (strMembers false kvs ++ rest) = some (kvs, rest)
  | [], _, _, fuel, rest, hf, _ => by
    obtain ⟨f, rfl⟩ : ∃ f, fuel = f + 1 := ⟨fuel - 1, by simp only [needMembers] at hf; omega⟩
    rw [strMembers]
    exact parseMembersTail_nil f rest
  | (k, v) :: kvs, hfields, hnodup, fuel, rest, hf, hd => by
    simp only [needMembers] at hf
    obtain ⟨g, rfl⟩ : ∃ g, fuel = g + 2 := ⟨fuel - 2, by omega⟩
    rw [fieldsJSON_cons, Bool.and_eq_true] at hfields
    rw [List.map_cons, List.nodup_cons] at hnodup
    have h0 := parse_strVal v hfields.1 g (strMembers false kvs ++ rest) (by omega)
      (delim_strMembers kvs rest hfields.2)
    have h1 := parseMember_spec g k v _ h0
    have h2 := parse_strMembers kvs hfields.2 hnodup.2 (g + 1) rest (by omega) hd
    rw [strMembers_cons false k v kvs hfields.1]
    simp only [Bool.false_eq_true, if_false, List.cons_append, List.nil_append,
      List.append_assoc]
    exact parseMembersTail_cons (g + 1) k v kvs _ rest hnodup.1 h1 h2
end

theorem printNum_length (q : ℚ) (hq : isDecimal q = true) : 1 ≤ (printNum q).length := by
  obtain ⟨c, r, hc, -⟩ := printNum_head q hq
  rw [hc]
  simp

mutual
theorem need_le_length : ∀ (v : JSVal), v.isJSON = true → need v ≤ (strVal v).length
  | .undefined, hv => by simp [JSVal.isJSON] at hv
  | .null, _ => by simp [need, strVal]
  | .bool true, _ => by simp [need, strVal]
  | .bool false, _ => by simp [need, strVal]
  | .num q, hv => by
    simp only [JSVal.isJSON] at hv
    simpa [need, strVal] using printNum_length q hv
  | .str s, _ => by simp [need, strVal, quoteString]
  | .arr [], _ => by simp [need, strVal]
  | .arr (x :: xs), hv => by
    simp only [JSVal.isJSON] at hv
    rw [allJSON_cons, Bool.and_eq_true] at hv
    have h1 := need_le_length x hv.1
    have h2 := needTail_le_length xs hv.2
    simp only [need, strVal, List.length_cons, List.length_append]
    omega
  | .obj kvs, hv => by
    simp only [JSVal.isJSON, Bool.and_eq_true] at hv
    have h1 := needMembers_le_length kvs hv.1 true
    simp only [need, strVal, List.length_cons]
    omega
theorem needTail_le_length : ∀ (xs : List JSVal), JSVal.allJSON xs = true →
    needTail xs ≤ (strTail xs).length
  | [], _ => by simp [needTail, strTail]
  | x :: xs, hv => by
    rw [allJSON_cons, Bool.and_eq_true] at hv
    have h1 := need_le_length x hv.1
    have h2 := needTail_le_length xs hv.2
    simp only [needTail, strTail, List.length_cons, List.length_append]
    omega
theorem needMembers_le_length : ∀ (kvs : List (String × JSVal)), JSVal.fieldsJSON kvs = true →
    ∀ first : Bool, needMembers kvs ≤ (strMembers first kvs).length
  | [], _, _ => by simp [needMembers, strMembers]
  | (k, v) :: kvs, hv, first => by
    rw [fieldsJSON_cons, Bool.and_eq_true] at hv
    have h1 := need_le_length v hv.1
    have h2 := needMembers_le_length kvs hv.2 false
    rw [strMembers_cons first k v kvs hv.1]
    simp only [needMembers, quoteString, List.length_cons, List.length_append]
    omega
end

end JsonText

theorem jsonCodec_lawful : jsonCodec.Lawful where
  parse_stringify := by
    intro v hv
    have hs : jsonCodec.stringify v = String.mk (JsonText.strVal v) := by
      cases v <;> first | rfl | (simp [JSVal.isJSON] at hv)
    have hp := JsonText.parse_strVal v hv ((JsonText.strVal v).length + 1) []
      (Nat.le_succ_of_le (JsonText.need_le_length v hv)) (by intro c hc; cases hc)
    rw [List.append_nil] at hp
    rw [hs]
    simp only [jsonCodec, String.length_mk, hp]
    rfl
  parse_empty := rfl

/-! ## Facts about the example data -/

theorem examplePins_decimal : ∀ p ∈ [examplePin, examplePolicePin], p.decimalCoords = true := by
  intro p hp
  simp only [List.mem_cons, List.mem_singleton, List.not_mem_nil, or_false] at hp
  rcases hp with hp | hp <;> subst hp <;>
    norm_num [Pin.decimalCoords, examplePin, examplePolicePin, isDecimal]

theorem examplePins_time : ∀ p ∈ [examplePin, examplePolicePin], p.timeInRange = true := by
  intro p hp
  simp only [List.mem_cons, List.mem_singleton, List.not_mem_nil, or_false] at hp
  rcases hp with hp | hp <;> subst hp <;> decide

theorem exampleState_loadPins (active : JSSet) :
    loadPins jsonCodec (exampleState active).localStorage =
      .ok (.arr ([examplePin, examplePolicePin].map Pin.toJS)) :=
  loadPins_after_save jsonCodec jsonCodec_lawful [] _
    (by rw [isJSON_arr]; exact allJSON_pins _ examplePins_decimal)

/-! # The claims -/

/-- C1: when the stored filter record is absent, unparseable or a non-empty
list, the script starts with a filter set `new Set(loadFilters())`, and from
any state holding that set, after every finite sequence of `toggleCategory`
calls with arbitrary arguments, `activeCategories` has at least one member. -/
theorem filter_set_never_empty (J : JSONCodec) (ls : Storage)
    (h : getItem ls filterKey = none ∨
      (∃ t, getItem ls filterKey = some t ∧ J.parse t = none) ∨
      (∃ t x xs, getItem ls filterKey = some t ∧ J.parse t = some (.arr (x :: xs)))) :
    ∃ active, startupFilterSet J ls = .ok active ∧
      ∀ (s : AppState) (cs : List JSVal), s.activeCategories = active →
        1 ≤ (toggleAll J s cs).activeCategories.size := by
  have key : ∃ x xs, loadFilters J ls = .ok (.arr (x :: xs)) := by
    rcases h with h | h | ⟨t, x, xs, hg, hp⟩
    · exact ⟨_, _, loadFilters_absent J ls (Or.inl h)⟩
    · exact ⟨_, _, loadFilters_absent J ls (Or.inr h)⟩
    · rcases loadFilters_cases J ls with hc | ⟨t2, v, hg2, hp2, hl⟩
      · exact ⟨_, _, hc⟩
      · rw [hg] at hg2
        cases hg2
        rw [hp] at hp2
        cases hp2
        exact ⟨x, xs, hl⟩
  obtain ⟨x, xs, hl⟩ := key
  refine ⟨(x :: xs).foldl JSSet.add [], by simp [startupFilterSet, hl, newSet], ?_⟩
  intro s cs hs
  have hinv : s.activeCategories ≠ [] ∧ s.activeCategories.Valid := by
    rw [hs]
    exact ⟨foldl_add_ne_nil xs _ (JSSet.add_ne_nil [] x),
      foldl_add_valid _ _ JSSet.valid_nil⟩
  have := (toggleAll_inv J cs s hinv).1
  exact List.length_pos.mpr this

/-- Witness for C1: the store holds the filter list `["police"]`; after the
toggles `police`, `undefined`, `police` the filter set is not empty. -/
theorem filter_set_never_empty_witness :
    getItem [(filterKey, "[\"police\"]")] filterKey = some "[\"police\"]" ∧
    jsonCodec.parse "[\"police\"]" = some (.arr [.str "police"]) ∧
    startupFilterSet jsonCodec [(filterKey, "[\"police\"]")] = .ok [.str "police"] ∧
    1 ≤ (toggleAll jsonCodec (initialState [(filterKey, "[\"police\"]")] [.str "police"])
      [.str "police", .undefined, .str "police"]).activeCategories.size := by
  obtain ⟨active, h1, h2⟩ := filter_set_never_empty jsonCodec [(filterKey, "[\"police\"]")]
    (Or.inr (Or.inr ⟨_, _, _, rfl, rfl⟩))
  have h0 : startupFilterSet jsonCodec [(filterKey, "[\"police\"]")] = .ok [.str "police"] := rfl
  have ha : active = [.str "police"] := by
    rw [h0] at h1
    cases h1
    rfl
  exact ⟨rfl, rfl, h0, h2 _ _ (by rw [ha]; rfl)⟩

/-- C2: `toggleCategory(c)` for a primitive `c` (a `dataset` string, or
`undefined`).  If `c` is the only member, the call changes nothing, the
storage log included.  Otherwise membership of `c` is flipped, membership of
every other value is kept, and the filter record is overwritten, by one
`setItem`, with the serialised members of the new set.  On the set holding
only `"police"`, toggling `"police"` changes nothing. -/
theorem toggleCategory_effect (J : JSONCodec) (c : JSVal) (s : AppState)
    (hc : c.isPrimitive = true) :
    ((s.activeCategories.has c = true ∧ s.activeCategories.size = 1) →
        toggleCategory J c s = (s, .normal)) ∧
    (¬ (s.activeCategories.has c = true ∧ s.activeCategories.size = 1) →
        (toggleCategory J c s).1.activeCategories.has c = !s.activeCategories.has c ∧
        (∀ d, d ≠ c →
          (toggleCategory J c s).1.activeCategories.has d = s.activeCategories.has d) ∧
        (toggleCategory J c s).1.localStorage =
          setItem s.localStorage filterKey
            (J.stringify (.arr (toggleCategory J c s).1.activeCategories)) ∧
        (toggleCategory J c s).1.storageLog =
          .setItem filterKey (J.stringify (.arr (toggleCategory J c s).1.activeCategories)) ::
            s.storageLog) ∧
    (s.activeCategories = [.str "police"] →
        toggleCategory J (.str "police") s = (s, .normal)) := by
  refine ⟨?_, ?_, ?_⟩
  · intro h
    unfold toggleCategory
    simp [h.1, h.2]
  · intro h
    have h1 : ¬ ((s.activeCategories.has c && s.activeCategories.size == 1) = true) := by
      simpa using h
    refine ⟨?_, ?_, toggleCategory_storage J c s h⟩
    · rw [toggleCategory_activeCategories]
      simp only [h1, if_false, Bool.false_eq_true]
      by_cases h2 : s.activeCategories.has c = true
      · simp [h2, JSSet.has_delete_self]
      · simp [h2, JSSet.has_add_self _ hc]
    · intro d hd
      rw [toggleCategory_activeCategories]
      simp only [h1, if_false, Bool.false_eq_true]
      by_cases h2 : s.activeCategories.has c = true
      · simp [h2, JSSet.has_delete_other _ hd]
      · simp [h2, JSSet.has_add_other _ hd]
  · intro h
    unfold toggleCategory
    simp [h, JSSet.has, JSSet.size, sameValueZero]

/-- Witness for C2: toggling `"police"` off in the set of `"police"` and
`"traffic"` removes it; toggling it in the set holding it alone changes nothing. -/
theorem toggleCategory_effect_witness :
    (JSVal.str "police").isPrimitive = true ∧
    (toggleCategory jsonCodec (.str "police")
      (initialState [] [.str "police", .str "traffic"])).1.activeCategories.has (.str "police") =
        false ∧
    (toggleCategory jsonCodec (.str "police")
      (initialState [] [.str "police", .str "traffic"])).1.activeCategories.has (.str "traffic") =
        true ∧
    toggleCategory jsonCodec (.str "police") (initialState [] [.str "police"]) =
      (initialState [] [.str "police"], .normal) := by
  have h := toggleCategory_effect jsonCodec (.str "police")
    (initialState [] [.str "police", .str "traffic"]) rfl
  have h2 := h.2.1 (by decide)
  refine ⟨rfl, ?_, ?_, ?_⟩
  · rw [h2.1]; rfl
  · rw [h2.2.1 (.str "traffic") (by simp)]; rfl
  · exact (toggleCategory_effect jsonCodec (.str "police")
      (initialState [] [.str "police"]) rfl).1 (by decide)

/-- C3: saving then loading.  For every list of pins (the empty list included;
coordinates being numbers a JSON text can denote), `loadPins()` after
`savePins(pins)` returns the list that was saved: same length, same order, the
same seven fields in each pin.  For every filter set of distinct category
keys, `new Set(loadFilters())` after `saveFilters()` is the set that was saved. -/
theorem save_load_round_trip (J : JSONCodec) (hJ : J.Lawful) (s : AppState) (pins : List Pin)
    (keys : List String)
    (hpins : ∀ p ∈ pins, p.decimalCoords = true)
    (hkeys : keys.Nodup) (hset : s.activeCategories = keys.map JSVal.str) :
    loadPins J (savePins J (.arr (pins.map Pin.toJS)) s).localStorage =
      .ok (.arr (pins.map Pin.toJS)) ∧
    startupFilterSet J (saveFilters J s).localStorage = .ok s.activeCategories := by
  constructor
  · exact loadPins_after_save J hJ _ _ (by rw [isJSON_arr]; exact allJSON_pins pins hpins)
  · have hl : loadFilters J (saveFilters J s).localStorage = .ok (.arr s.activeCategories) :=
      loadFilters_after_save J hJ _ _ (by rw [isJSON_arr, hset]; exact allJSON_strs keys)
    have hv : JSSet.Valid ([] ++ s.activeCategories) := by
      rw [hset]
      exact valid_strs keys hkeys
    simp only [startupFilterSet, hl, newSet]
    rw [foldl_add_of_valid _ _ hv]
    rfl

/-- Witness for C3: the two example pins and the filter set of `"police"` and
`"traffic"` are read back as they were saved. -/
theorem save_load_round_trip_witness :
    jsonCodec.Lawful ∧
    (∀ p ∈ [examplePin, examplePolicePin], p.decimalCoords = true) ∧
    ["police", "traffic"].Nodup ∧
    loadPins jsonCodec
        (savePins jsonCodec (.arr ([examplePin, examplePolicePin].map Pin.toJS))
          (initialState [] [.str "police", .str "traffic"])).localStorage =
      .ok (.arr [examplePin.toJS, examplePolicePin.toJS]) ∧
    startupFilterSet jsonCodec
        (saveFilters jsonCodec (initialState [] [.str "police", .str "traffic"])).localStorage =
      .ok [.str "police", .str "traffic"] :=
  ⟨jsonCodec_lawful, examplePins_decimal, by decide,
    save_load_round_trip jsonCodec jsonCodec_lawful
      (initialState [] [.str "police", .str "traffic"]) [examplePin, examplePolicePin]
      ["police", "traffic"] examplePins_decimal (by decide) rfl⟩

/-- C4: `loadPins` and `loadFilters` return normally on every content of the
store.  When the pin record is absent or its text does not parse, `loadPins`
returns the empty list and `renderPins` shows the empty-state placeholder (and
no marker); when the filter record is absent or does not parse, `loadFilters`
returns the five category keys in their declared order. -/
theorem load_never_raises (J : JSONCodec) (s : AppState) :
    (∃ v, loadPins J s.localStorage = .ok v) ∧
    (∃ v, loadFilters J s.localStorage = .ok v) ∧
    ((getItem s.localStorage storageKey = none ∨
        ∃ t, getItem s.localStorage storageKey = some t ∧ J.parse t = none) →
      loadPins J s.localStorage = .ok (.arr []) ∧
      renderPins J s =
        ({ s with
           markersLayer := []
           activityList :=
             .html "<div class=\"empty-state\">No pins yet. Click the map to add one!</div>" },
         .normal)) ∧
    ((getItem s.localStorage filterKey = none ∨
        ∃ t, getItem s.localStorage filterKey = some t ∧ J.parse t = none) →
      loadFilters J s.localStorage =
        .ok (.arr [.str "block_party", .str "police", .str "traffic", .str "community",
          .str "other"])) := by
  refine ⟨loadPins_total J _, loadFilters_total J _, ?_, ?_⟩
  · intro h
    have hl := loadPins_absent J s.localStorage h
    exact ⟨hl, renderPins_of_empty J s hl⟩
  · intro h
    exact loadFilters_absent J s.localStorage h

/-- Witness for C4: the pin record holds the text `not json`; `loadPins`
returns the empty list and the feed shows the placeholder. -/
theorem load_never_raises_witness :
    getItem (initialState [(storageKey, "not json")] []).localStorage storageKey =
      some "not json" ∧
    jsonCodec.parse "not json" = none ∧
    loadPins jsonCodec (initialState [(storageKey, "not json")] []).localStorage = .ok (.arr []) ∧
    (renderPins jsonCodec (initialState [(storageKey, "not json")] [])).1.activityList =
      .html "<div class=\"empty-state\">No pins yet. Click the map to add one!</div>" := by
  have h := (load_never_raises jsonCodec (initialState [(storageKey, "not json")] [])).2.2.1
    (Or.inr ⟨"not json", rfl, rfl⟩)
  refine ⟨rfl, rfl, h.1, ?_⟩
  rw [h.2]

/-- C5: a form submit while `selectedLatLng` is `null` leaves `localStorage`
untouched (no call is logged), changes nothing but the readout, and sets the
readout to "Pick a spot on the map before posting.". -/
theorem submit_without_selection (J : JSONCodec) (form : FormData) (uuid : String) (now : Nat)
    (s : AppState) (h : s.selectedLatLng = none) :
    (submitPin J form uuid now s).1.localStorage = s.localStorage ∧
    (submitPin J form uuid now s).1.storageLog = s.storageLog ∧
    (submitPin J form uuid now s).1.readoutText =
      .literal "Pick a spot on the map before posting." ∧
    submitPin J form uuid now s =
      ({ s with
         readoutText := .literal "Pick a spot on the map before posting."
         readoutColor := "#f472b6" }, .normal) := by
  unfold submitPin
  simp [h, pickSpotMessage]

/-- Witness for C5: a submit on the freshly started page, where nothing is selected. -/
theorem submit_without_selection_witness :
    (initialState [] []).selectedLatLng = none ∧
    (submitPin jsonCodec ⟨"Block BBQ", "block_party", ""⟩ "3f2b" 1700000000000
      (initialState [] [])).1.storageLog = [] ∧
    (submitPin jsonCodec ⟨"Block BBQ", "block_party", ""⟩ "3f2b" 1700000000000
      (initialState [] [])).1.readoutText = .literal "Pick a spot on the map before posting." := by
  have h := submit_without_selection jsonCodec ⟨"Block BBQ", "block_party", ""⟩ "3f2b"
    1700000000000 (initialState [] []) rfl
  exact ⟨rfl, h.2.1, h.2.2.1⟩

/-- C6: a form submit while a Selection Point `latlng` exists, on a store whose
pin list is `P`, writes by one `setItem` a list that `loadPins` reads back as
the new pin followed by `P` in its prior order, so of length `|P| + 1`.  The
new pin carries the trimmed title and description, the category of the form,
the coordinates of the Selection Point and the clock reading.  On an empty
repository the stored list is exactly that one pin. -/
theorem submit_with_selection (J : JSONCodec) (hJ : J.Lawful) (form : FormData) (uuid : String)
    (now : Nat) (s : AppState) (latlng : LatLng) (P : List JSVal)
    (hsel : s.selectedLatLng = some latlng)
    (hP : loadPins J s.localStorage = .ok (.arr P))
    (hdata : (JSVal.arr P).isJSON = true)
    (hlat : isDecimal latlng.lat = true) (hlng : isDecimal latlng.lng = true) :
    ∃ pin : JSVal,
      loadPins J (submitPin J form uuid now s).1.localStorage = .ok (.arr (pin :: P)) ∧
      (pin :: P).length = P.length + 1 ∧
      (P = [] → loadPins J (submitPin J form uuid now s).1.localStorage = .ok (.arr [pin])) ∧
      (submitPin J form uuid now s).1.storageLog =
        .setItem storageKey (J.stringify (.arr (pin :: P))) :: s.storageLog ∧
      getProp pin "title" = .ok (.str (trim form.title)) ∧
      getProp pin "description" = .ok (.str (trim form.description)) ∧
      getProp pin "category" = .ok (.str form.category) ∧
      getProp pin "lat" = .ok (.num latlng.lat) ∧
      getProp pin "lng" = .ok (.num latlng.lng) ∧
      getProp pin "createdAt" = .ok (.num now) := by
  have hst := submitPin_storage J form uuid now s latlng P hsel hP
  have hpin := newPin_isJSON form uuid latlng now hlat hlng
  have hall : (JSVal.arr (newPin form uuid latlng now :: P)).isJSON = true := by
    rw [isJSON_arr] at hdata
    rw [isJSON_arr, allJSON_cons, hpin, hdata]
    rfl
  have hload : loadPins J (submitPin J form uuid now s).1.localStorage =
      .ok (.arr (newPin form uuid latlng now :: P)) := by
    rw [hst.1]
    exact loadPins_after_save J hJ _ _ hall
  refine ⟨newPin form uuid latlng now, hload, rfl, ?_, hst.2.1, ?_⟩
  · intro hnil
    rw [hload, hnil]
  · simp [newPin, getProp, List.lookup]

/-- Witness for C6: the first scenario of the specification, with spaces
around the title: one pin is stored, titled `Block BBQ`, at the selected point. -/
theorem submit_with_selection_witness :
    (setSelection ⟨4071 / 100, -7401 / 100⟩ (initialState [] [])).selectedLatLng =
      some ⟨4071 / 100, -7401 / 100⟩ ∧
    loadPins jsonCodec (setSelection ⟨4071 / 100, -7401 / 100⟩ (initialState [] [])).localStorage =
      .ok (.arr []) ∧
    ∃ pin : JSVal,
      loadPins jsonCodec
          (submitPin jsonCodec ⟨"  Block BBQ ", "block_party", ""⟩ "3f2b" 1700000000000
            (setSelection ⟨4071 / 100, -7401 / 100⟩ (initialState [] []))).1.localStorage =
        .ok (.arr [pin]) ∧
      getProp pin "title" = .ok (.str "Block BBQ") ∧
      getProp pin "category" = .ok (.str "block_party") ∧
      getProp pin "lat" = .ok (.num (4071 / 100)) ∧
      getProp pin "lng" = .ok (.num (-7401 / 100)) ∧
      getProp pin "createdAt" = .ok (.num 1700000000000) := by
  obtain ⟨pin, h1, -, -, -, h5, -, h7, h8, h9, h10⟩ :=
    submit_with_selection jsonCodec jsonCodec_lawful ⟨"  Block BBQ ", "block_party", ""⟩ "3f2b"
      1700000000000 (setSelection ⟨4071 / 100, -7401 / 100⟩ (initialState [] []))
      ⟨4071 / 100, -7401 / 100⟩ [] rfl rfl rfl (by norm_num [isDecimal])
      (by norm_num [isDecimal])
  have ht : trim "  Block BBQ " = "Block BBQ" := by decide
  rw [ht] at h5
  exact ⟨rfl, rfl, pin, h1, h5, h7, h8, h9, by simpa using h10⟩

/-- C7: the clear-button handler.  On an empty repository it changes nothing
and logs no storage call; when the user declines, the state (the stored pin
record included) is unchanged; when the user confirms, `loadPins()` afterwards
returns the empty list, and a second click then changes nothing and logs no
call.  In every case the filter set and the Selection Point are unchanged. -/
theorem clear_button (J : JSONCodec) (confirmed : Bool) (s : AppState) :
    (loadPins J s.localStorage = .ok (.arr []) → clearPinsClick J confirmed s = (s, .normal)) ∧
    (clearPinsClick J false s).1 = s ∧
    (∀ P, loadPins J s.localStorage = .ok (.arr P) →
      loadPins J (clearPinsClick J true s).1.localStorage = .ok (.arr []) ∧
      ∀ again, clearPinsClick J again (clearPinsClick J true s).1 =
        ((clearPinsClick J true s).1, .normal)) ∧
    (clearPinsClick J confirmed s).1.activeCategories = s.activeCategories ∧
    (clearPinsClick J confirmed s).1.selectedLatLng = s.selectedLatLng := by
  refine ⟨clearPinsClick_of_empty J confirmed s, clearPinsClick_declined J s, ?_,
    clearPinsClick_frame J confirmed s⟩
  intro P hP
  have h := clearPinsClick_confirmed J s P hP
  exact ⟨h, fun again => clearPinsClick_of_empty J again _ h⟩

/-- Witness for C7: on a repository of two pins a confirmed clear empties it,
a declined one changes nothing, and a second click changes nothing. -/
theorem clear_button_witness :
    loadPins jsonCodec (exampleState []).localStorage =
      .ok (.arr [examplePin.toJS, examplePolicePin.toJS]) ∧
    loadPins jsonCodec (clearPinsClick jsonCodec true (exampleState [])).1.localStorage =
      .ok (.arr []) ∧
    (clearPinsClick jsonCodec false (exampleState [])).1 = exampleState [] ∧
    clearPinsClick jsonCodec true (clearPinsClick jsonCodec true (exampleState [])).1 =
      ((clearPinsClick jsonCodec true (exampleState [])).1, .normal) := by
  have h := clear_button jsonCodec true (exampleState [])
  have h3 := h.2.2.1 _ (exampleState_loadPins [])
  exact ⟨exampleState_loadPins [], h3.1, h.2.1, h3.2 true⟩

/-- C8: on a store holding a list of pins (with time values as timestamps), for
every filter set, `renderPins` completes normally and draws exactly the stored
pins whose category is in the filter set, in stored order: one marker and one
card per such pin, cards in the order of that subsequence.  When the
subsequence is empty it shows the single empty-state placeholder and no
marker.  It never writes to the store. -/
theorem renderPins_draws_filtered (J : JSONCodec) (s : AppState) (pins : List Pin)
    (htime : ∀ p ∈ pins, p.timeInRange = true)
    (hstored : loadPins J s.localStorage = .ok (.arr (pins.map Pin.toJS))) :
    (renderPins J s).2 = .normal ∧
    (renderPins J s).1.localStorage = s.localStorage ∧
    (renderPins J s).1.storageLog = s.storageLog ∧
    (visiblePins s.activeCategories pins = [] →
      (renderPins J s).1.activityList =
        .html "<div class=\"empty-state\">No pins yet. Click the map to add one!</div>" ∧
      (renderPins J s).1.markersLayer = []) ∧
    (visiblePins s.activeCategories pins ≠ [] →
      (renderPins J s).1.activityList =
        .cards ((visiblePins s.activeCategories pins).map Pin.card) ∧
      (renderPins J s).1.markersLayer = (visiblePins s.activeCategories pins).map Pin.marker) := by
  have h := renderPins_of_pins J s pins htime hstored
  refine ⟨?_, renderPins_localStorage J s, renderPins_storageLog J s, ?_, ?_⟩
  · rw [h]; split <;> rfl
  · intro he
    rw [h, if_pos he]
    exact ⟨rfl, rfl⟩
  · intro hne
    rw [h, if_neg hne]
    exact ⟨rfl, rfl⟩

/-- Witness for C8: of the two example pins only the police pin is drawn when
the filter set holds `"police"` alone. -/
theorem renderPins_draws_filtered_witness :
    (∀ p ∈ [examplePin, examplePolicePin], p.timeInRange = true) ∧
    loadPins jsonCodec (exampleState [.str "police"]).localStorage =
      .ok (.arr ([examplePin, examplePolicePin].map Pin.toJS)) ∧
    visiblePins [.str "police"] [examplePin, examplePolicePin] = [examplePolicePin] ∧
    (renderPins jsonCodec (exampleState [.str "police"])).1.activityList =
      .cards [examplePolicePin.card] ∧
    (renderPins jsonCodec (exampleState [.str "police"])).1.markersLayer =
      [examplePolicePin.marker] := by
  have h := renderPins_draws_filtered jsonCodec (exampleState [.str "police"])
    [examplePin, examplePolicePin] examplePins_time (exampleState_loadPins _)
  have hv : visiblePins (exampleState [.str "police"]).activeCategories
      [examplePin, examplePolicePin] = [examplePolicePin] := rfl
  rw [hv] at h
  have h5 := h.2.2.2.2 (by simp)
  exact ⟨examplePins_time, exampleState_loadPins _, rfl, h5.1, h5.2⟩

/-- Counterexample to C9 as stated: with a spot selected, submitting the title
of three spaces writes a pin whose title is the empty string. -/
theorem submitted_title_can_be_empty :
    (setSelection ⟨40, -74⟩ (initialState [] [])).selectedLatLng = some ⟨40, -74⟩ ∧
    (submitPin jsonCodec ⟨"   ", "other", ""⟩ "3f2b" 1700000000000
        (setSelection ⟨40, -74⟩ (initialState [] []))).1.storageLog =
      [.setItem "community-pins-v1"
        ("[\x7b\"id\":\"3f2b\",\"title\":\"\",\"category\":\"other\"," ++
          "\"description\":\"\",\"lat\":40,\"lng\":-74,\"createdAt\":1700000000000\x7d]")] ∧
    loadPins jsonCodec
        (submitPin jsonCodec ⟨"   ", "other", ""⟩ "3f2b" 1700000000000
          (setSelection ⟨40, -74⟩ (initialState [] []))).1.localStorage =
      .ok (.arr [.obj [("id", .str "3f2b"), ("title", .str ""), ("category", .str "other"),
        ("description", .str ""), ("lat", .num 40), ("lng", .num (-74)),
        ("createdAt", .num 1700000000000)]]) := by
  refine ⟨rfl, ?_, ?_⟩
  · rfl
  · have hst := submitPin_storage jsonCodec ⟨"   ", "other", ""⟩ "3f2b" 1700000000000
      (setSelection ⟨40, -74⟩ (initialState [] [])) ⟨40, -74⟩ [] rfl rfl
    have hpin := newPin_isJSON ⟨"   ", "other", ""⟩ "3f2b" ⟨40, -74⟩ 1700000000000
      (by norm_num [isDecimal]) (by norm_num [isDecimal])
    rw [hst.1]
    exact loadPins_after_save jsonCodec jsonCodec_lawful [] _
      (by rw [isJSON_arr, allJSON_cons, hpin]; rfl)

/-- C9 (amended): the pin written by a form submit has as title the trimmed
form value: a string whose first and last characters are not whitespace, and
which is non-empty exactly when the form value has a non-whitespace
character. -/
theorem submitted_title_is_trimmed (J : JSONCodec) (form : FormData) (uuid : String) (now : Nat)
    (s : AppState) (latlng : LatLng) (P : List JSVal)
    (hsel : s.selectedLatLng = some latlng)
    (hP : loadPins J s.localStorage = .ok (.arr P)) :
    ∃ pin : JSVal,
      (submitPin J form uuid now s).1.storageLog =
        .setItem storageKey (J.stringify (.arr (pin :: P))) :: s.storageLog ∧
      getProp pin "title" = .ok (.str (trim form.title)) ∧
      (∀ c, (trim form.title).data.head? = some c → isWhiteSpace c = false) ∧
      (∀ c, (trim form.title).data.getLast? = some c → isWhiteSpace c = false) ∧
      (trim form.title ≠ "" ↔ ∃ c ∈ form.title.data, isWhiteSpace c = false) := by
  refine ⟨newPin form uuid latlng now, (submitPin_storage J form uuid now s latlng P hsel hP).2.1,
    ?_, trim_head_not_space _, trim_last_not_space _, trim_ne_empty_iff _⟩
  simp [newPin, getProp, List.lookup]

/-- Witness for C9 (amended): the title `  Block BBQ ` is stored as `Block BBQ`. -/
theorem submitted_title_is_trimmed_witness :
    (setSelection ⟨40, -74⟩ (initialState [] [])).selectedLatLng = some ⟨40, -74⟩ ∧
    loadPins jsonCodec (setSelection ⟨40, -74⟩ (initialState [] [])).localStorage =
      .ok (.arr []) ∧
    (∃ pin : JSVal,
      (submitPin jsonCodec ⟨"  Block BBQ ", "block_party", ""⟩ "3f2b" 1700000000000
          (setSelection ⟨40, -74⟩ (initialState [] []))).1.storageLog =
        [.setItem storageKey (jsonCodec.stringify (.arr [pin]))] ∧
      getProp pin "title" = .ok (.str "Block BBQ")) ∧
    (trim "  Block BBQ " ≠ "" ↔ ∃ c ∈ "  Block BBQ ".data, isWhiteSpace c = false) := by
  obtain ⟨pin, h1, h2, -, -, h5⟩ :=
    submitted_title_is_trimmed jsonCodec ⟨"  Block BBQ ", "block_party", ""⟩ "3f2b"
      1700000000000 (setSelection ⟨40, -74⟩ (initialState [] [])) ⟨40, -74⟩ [] rfl rfl
  have ht : trim "  Block BBQ " = "Block BBQ" := by decide
  rw [ht] at h2
  exact ⟨rfl, rfl, ⟨pin, h1, h2⟩, h5⟩

/-- C10: start from a store without a pin record and run any sequence of
events (map clicks, legend clicks, clear clicks, form submits) in which the
clock readings of the submits never decrease.  Then the store holds a list
`pins` of pins, and for every filter set `shown`, `renderPins` completes
normally and its feed shows the cards of the pins of `pins` whose category is
in `shown`, in stored order, and of two of them of the same category with
different `createdAt` the one with the larger `createdAt` comes first. -/
theorem feed_newest_first (J : JSONCodec) (hJ : J.Lawful) (ls : Storage) (active shown : JSSet)
    (events : List Event)
    (hempty : getItem ls storageKey = none)
    (hwf : ∀ e ∈ events, e.wellFormed = true)
    (hclock : (submitClocks events).Pairwise (fun a b => a ≤ b)) :
    ∃ pins : List Pin,
      loadPins J (run J (initialState ls active) events).localStorage =
        .ok (.arr (pins.map Pin.toJS)) ∧
      (renderPins J
          { run J (initialState ls active) events with activeCategories := shown }).2 = .normal ∧
      (renderPins J
          { run J (initialState ls active) events with activeCategories := shown }).1.activityList =
        (if visiblePins shown pins = [] then .html emptyStateHtml
          else .cards ((visiblePins shown pins).map Pin.card)) ∧
      ∀ (i j : Nat) (hi : i < (visiblePins shown pins).length)
        (hj : j < (visiblePins shown pins).length),
        (visiblePins shown pins)[i].category = (visiblePins shown pins)[j].category →
        (visiblePins shown pins)[j].createdAt < (visiblePins shown pins)[i].createdAt → i < j := by
  have h0 : StoreInv J (initialState ls active) [] (submitClocks events) := by
    refine ⟨loadPins_absent J _ (Or.inl hempty), by simp, List.Pairwise.nil, by simp, ?_⟩
    intro ll hll
    simp [initialState] at hll
  obtain ⟨pins, hload, hdata, hsorted, -, -⟩ := run_inv J hJ events _ [] hwf hclock h0
  have hr := renderPins_of_pins J
    { run J (initialState ls active) events with activeCategories := shown } pins
    (fun p hp => (hdata p hp).2) hload
  refine ⟨pins, hload, ?_, ?_, ?_⟩
  · rw [hr]; split <;> rfl
  · rw [hr]
    split <;> rfl
  · intro i j hi hj _ hlt
    have hvis : (visiblePins shown pins).Pairwise (fun a b => b.createdAt ≤ a.createdAt) := by
      unfold visiblePins
      exact List.Pairwise.filter _ hsorted
    have hs := List.pairwise_iff_getElem.mp hvis
    by_contra hnot
    rcases Nat.lt_or_ge j i with hji | hji
    · have := hs j i hj hi hji
      omega
    · have hij : i = j := by omega
      subst hij
      omega

/-- Witness for C10: a map click and two submits of category `police`, the
second a second after the first, rendered with the filter set of `"police"`. -/
theorem feed_newest_first_witness :
    jsonCodec.Lawful ∧
    getItem ([] : Storage) storageKey = none ∧
    (∀ e ∈ exampleEvents, e.wellFormed = true) ∧
    (submitClocks exampleEvents).Pairwise (fun a b => a ≤ b) ∧
    ∃ pins : List Pin,
      loadPins jsonCodec (run jsonCodec (initialState [] []) exampleEvents).localStorage =
        .ok (.arr (pins.map Pin.toJS)) ∧
      (renderPins jsonCodec
          { run jsonCodec (initialState [] []) exampleEvents with
            activeCategories := [.str "police"] }).1.activityList =
        (if visiblePins [.str "police"] pins = [] then .html emptyStateHtml
          else .cards ((visiblePins [.str "police"] pins).map Pin.card)) ∧
      ∀ (i j : Nat) (hi : i < (visiblePins [.str "police"] pins).length)
        (hj : j < (visiblePins [.str "police"] pins).length),
        (visiblePins [.str "police"] pins)[i].category =
          (visiblePins [.str "police"] pins)[j].category →
        (visiblePins [.str "police"] pins)[j].createdAt <
          (visiblePins [.str "police"] pins)[i].createdAt → i < j := by
  have hwf : ∀ e ∈ exampleEvents, e.wellFormed = true := by
    intro e he
    simp only [exampleEvents, List.mem_cons, List.mem_singleton, List.not_mem_nil,
      or_false] at he
    rcases he with he | he | he <;> subst he
    · norm_num [Event.wellFormed, isDecimal]
    · decide
    · decide
  have hclock : (submitClocks exampleEvents).Pairwise (fun a b => a ≤ b) := by
    simp [exampleEvents, submitClocks]
  obtain ⟨pins, h1, -, h3, h4⟩ := feed_newest_first jsonCodec jsonCodec_lawful [] []
    [.str "police"] exampleEvents rfl hwf hclock
  exact ⟨jsonCodec_lawful, rfl, hwf, hclock, pins, h1, h3, h4⟩

end PinMap
